import Mathlib

/-! # index-arch-sorter: the extraction pipeline

A shallow embedding of `pkg/models/operator.go`, `pkg/parser/parser.go` and the
filters and the comparator of `cmd/sorter/main.go`, and the properties of the
architecture extractor, of the record decoder and of the filters.

Conventions of the embedding.

* A Go `interface{}` filled by `encoding/json` is a `JValue`; a Go
  `map[string]interface{}` is an association list read with `mapIndex`
  (the first binding of a key is the map's binding; a Go map has one binding
  per key).
* `range` over a Go map visits every key once, in an order the language
  leaves unspecified and that may change from one loop to the next.  The
  order is an explicit argument: a `RangeOrder` is any arrangement of the
  four bindings of `archMap`, and the extractor receives one per call of
  `extractArchLabels`.
* A nil pointer result is `none`; a nil slice and an empty slice are both `[]`.
* The `for` loop of `ParseOperatorIndex` has no bound in the source; the
  embedding runs it with fuel and answers `none` when the fuel is used up
  before the loop is left.
* Functions of the Go library are arguments: `strings.ToLower` is `toLower`, and
  `sort.Slice` is any sort that keeps the contract its documentation states.
  `encoding/json` is the model `Decoder.Decode`.
-/

namespace IndexArchSorter

/-! ## pkg/models/operator.go -/

/-- A value stored by `encoding/json` in an `interface{}`: nil, bool, float64
(kept as its literal text), string, `[]interface{}` or `map[string]interface{}`. -/
inductive JValue where
  | null : JValue
  | bool (b : Bool) : JValue
  | number (literal : String) : JValue
  | string (s : String) : JValue
  | array (items : List JValue) : JValue
  | object (members : List (String × JValue)) : JValue

/-- The Go type `map[string]interface{}`. -/
abbrev JMap := List (String × JValue)

/-- Indexing `m[key]` of a Go map: `none` when the key has no binding. -/
def mapIndex : JMap → String → Option JValue
  | [], _ => none
  | (k, v) :: rest, key => if k = key then some v else mapIndex rest key

/-- Deleting a key from a Go map (`delete(m, key)`). -/
def mapDelete : JMap → String → JMap
  | [], _ => []
  | (k, v) :: rest, key => if k = key then mapDelete rest key else (k, v) :: mapDelete rest key

/-- The struct `Property`; `Typ` is its field `Type`, a reserved word here. -/
structure Property where
  Typ : String
  Value : JValue

/-- The struct `RelatedImage`. -/
structure RelatedImage where
  Name : String
  Image : String

/-- The struct `OperatorIndexEntry`. -/
structure OperatorIndexEntry where
  Schema : String
  Name : String
  Package : String
  Image : String
  Properties : List Property
  RelatedImages : List RelatedImage

/-- The struct `ArchitectureSupport`. -/
structure ArchitectureSupport where
  OperatorName : String
  BundleName : String
  Package : String
  Image : String
  SupportedArchs : List String
  AMD64 : String
  ARM64 : String
  PPC64LE : String
  S390X : String
  deriving DecidableEq, Repr

/-! ## pkg/parser/parser.go: the extractor -/

/-- The four status fields of `ArchitectureSupport` that `archMap` points to. -/
inductive ArchField where
  | AMD64 : ArchField
  | ARM64 : ArchField
  | PPC64LE : ArchField
  | S390X : ArchField
  deriving DecidableEq, Repr

/-- Reading through a field pointer `*field`. -/
def ArchField.get (a : ArchitectureSupport) : ArchField → String
  | .AMD64 => a.AMD64
  | .ARM64 => a.ARM64
  | .PPC64LE => a.PPC64LE
  | .S390X => a.S390X

/-- The assignment `*field = strValue`. -/
def ArchField.set (a : ArchitectureSupport) (v : String) : ArchField → ArchitectureSupport
  | .AMD64 => { a with AMD64 := v }
  | .ARM64 => { a with ARM64 := v }
  | .PPC64LE => { a with PPC64LE := v }
  | .S390X => { a with S390X := v }

/-- The map literal `archMap` of `extractArchLabels`, written in source order. -/
def archMap : List (String × ArchField) :=
  [("operatorframework.io/arch.amd64", .AMD64),
   ("operatorframework.io/arch.arm64", .ARM64),
   ("operatorframework.io/arch.ppc64le", .PPC64LE),
   ("operatorframework.io/arch.s390x", .S390X)]

/-- The map literal `archNames` of `extractArchLabels`. -/
def archNames : List (String × String) :=
  [("operatorframework.io/arch.amd64", "amd64"),
   ("operatorframework.io/arch.arm64", "arm64"),
   ("operatorframework.io/arch.ppc64le", "ppc64le"),
   ("operatorframework.io/arch.s390x", "s390x")]

/-- Indexing `archNames[label]`: the zero value `""` for a key without binding. -/
def archNamesIndex (label : String) : String :=
  match archNames.lookup label with
  | some name => name
  | none => ""

/-- One order in which `for label, field := range archMap` may visit the map:
any arrangement of its four bindings. -/
structure RangeOrder where
  visits : List (String × ArchField)
  perm : visits.Perm archMap

/-- The order that follows the map literal: amd64, arm64, ppc64le, s390x. -/
def RangeOrder.literal : RangeOrder := ⟨archMap, List.Perm.refl _⟩

/-- The lookup `value, exists := labels[label]` followed by the type assertion
`strValue, ok := value.(string)`: the string the labels hold for the key, if any. -/
def labelString (labels : JMap) (label : String) : Option String :=
  match mapIndex labels label with
  | some (.string strValue) => some strValue
  | _ => none

/-- The body of the loop of `extractArchLabels` for one binding of `archMap`. -/
def rangeBody (labels : JMap) (archSupport : ArchitectureSupport)
    (binding : String × ArchField) : ArchitectureSupport :=
  match labelString labels binding.1 with
  | some strValue =>
    let written := binding.2.set archSupport strValue
    if strValue = "supported" then
      { written with SupportedArchs := written.SupportedArchs ++ [archNamesIndex binding.1] }
    else written
  | none => archSupport

/-- The function `extractArchLabels`, the struct behind the pointer passed by value
and returned. -/
def extractArchLabels (order : RangeOrder) (labels : JMap)
    (archSupport : ArchitectureSupport) : ArchitectureSupport :=
  order.visits.foldl (rangeBody labels) archSupport

/-- The two type assertions of `extractArchitectureSupport` on a property of type
`olm.csv.metadata`: `prop.Value.(map[string]interface{})` and then
`propMap["labels"].(map[string]interface{})`. -/
def metadataLabels (prop : Property) : Option JMap :=
  if prop.Typ = "olm.csv.metadata" then
    match prop.Value with
    | .object propMap =>
      match mapIndex propMap "labels" with
      | some (.object labels) => some labels
      | _ => none
    | _ => none
  else none

/-- The loop over `entry.Properties`; `calls` counts the calls of
`extractArchLabels` made so far, the next one ranges in the order `orders calls`. -/
def visitProperties (orders : Nat → RangeOrder) :
    Nat → List Property → ArchitectureSupport → ArchitectureSupport
  | _, [], archSupport => archSupport
  | calls, prop :: rest, archSupport =>
    match metadataLabels prop with
    | some labels =>
      visitProperties orders (calls + 1) rest (extractArchLabels (orders calls) labels archSupport)
    | none => visitProperties orders calls rest archSupport

/-- The record `extractArchitectureSupport` starts from. -/
def initialSupport (entry : OperatorIndexEntry) : ArchitectureSupport :=
  { OperatorName := entry.Name
    BundleName := entry.Name
    Package := entry.Package
    Image := entry.Image
    SupportedArchs := []
    AMD64 := ""
    ARM64 := ""
    PPC64LE := ""
    S390X := "" }

/-- The function `extractArchitectureSupport`. -/
def extractArchitectureSupport (orders : Nat → RangeOrder)
    (entry : OperatorIndexEntry) : Option ArchitectureSupport :=
  let archSupport := visitProperties orders 0 entry.Properties (initialSupport entry)
  if archSupport.SupportedArchs.length > 0 then some archSupport else none

/-! ### Vocabulary for the statements about the extractor -/

/-- The key of `archMap` that points to a status field. -/
def ArchField.label : ArchField → String
  | .AMD64 => "operatorframework.io/arch.amd64"
  | .ARM64 => "operatorframework.io/arch.arm64"
  | .PPC64LE => "operatorframework.io/arch.ppc64le"
  | .S390X => "operatorframework.io/arch.s390x"

/-- The architecture identifier `archNames` gives for the key of a status field. -/
def ArchField.name (f : ArchField) : String := archNamesIndex f.label

/-- The fixed enumeration order: amd64, arm64, ppc64le, s390x. -/
def ArchField.all : List ArchField := [.AMD64, .ARM64, .PPC64LE, .S390X]

/-- The value `&models.ArchitectureSupport{}`: every field at its zero value. -/
def ArchitectureSupport.zero : ArchitectureSupport :=
  { OperatorName := "", BundleName := "", Package := "", Image := "", SupportedArchs := [],
    AMD64 := "", ARM64 := "", PPC64LE := "", S390X := "" }

/-- The labels of the properties that reach `extractArchLabels`, in properties order. -/
def metadataLabelsOf (entry : OperatorIndexEntry) : List JMap :=
  entry.Properties.filterMap metadataLabels

/-- Whether some metadata property of the entry carries the label of the
architecture with the string `"supported"`. -/
def labelledSupported (entry : OperatorIndexEntry) (f : ArchField) : Bool :=
  (metadataLabelsOf entry).any
    (fun labels => decide (labelString labels f.label = some "supported"))

/-- The names `extractArchLabels` appends when it ranges over the bindings `visits`:
those of the bindings whose label holds `"supported"`, in the order visited. -/
def appendedNames (labels : JMap) (visits : List (String × ArchField)) : List String :=
  (visits.filter (fun b => decide (labelString labels b.1 = some "supported"))).map
    (fun b => archNamesIndex b.1)

/-- The calls of `extractArchLabels` that `visitProperties` makes, on the list of the
labels that reach it. -/
def applyLabels (orders : Nat → RangeOrder) :
    Nat → List JMap → ArchitectureSupport → ArchitectureSupport
  | _, [], archSupport => archSupport
  | calls, labels :: rest, archSupport =>
    applyLabels orders (calls + 1) rest (extractArchLabels (orders calls) labels archSupport)

/-! ## pkg/parser/parser.go: the decoder loop -/

/-- A Go `error` value as the loop looks at it: the sentinel `io.EOF`, any other
error with the text of its `Error()`, or an error built by `fmt.Errorf` with `%w`
around a cause. -/
inductive GoError where
  | EOF : GoError
  | other (msg : String) : GoError
  | wrap (msg : String) (cause : GoError) : GoError
  deriving DecidableEq, Repr

/-- The method `Error()`. -/
def GoError.Error : GoError → String
  | .EOF => "EOF"
  | .other msg => msg
  | .wrap msg _ => msg

/-- The method `Unwrap()`: the cause of an error built with `%w`. -/
def GoError.Unwrap : GoError → Option GoError
  | .wrap _ cause => some cause
  | _ => none

/-- Whether `substr` occurs in the character list `s`. -/
def containsChars : List Char → List Char → Bool
  | [], substr => substr.isEmpty
  | c :: cs, substr => substr.isPrefixOf (c :: cs) || containsChars cs substr

/-- The function `strings.Contains`. -/
def stringsContains (s substr : String) : Bool :=
  containsChars s.data substr.data

/-- What the next top-level value of the input is to `json.Decoder`. -/
inductive StreamItem where
  /-- A well-formed JSON value that unmarshals into this entry. -/
  | value (entry : OperatorIndexEntry) : StreamItem
  /-- A well-formed JSON value that does not fit `OperatorIndexEntry`: it is read
  whole and `Decode` answers the unmarshal error with this text. -/
  | mismatch (msg : String) : StreamItem
  /-- Bytes that are not JSON: the scanner stops with a syntax error of this text. -/
  | malformed (msg : String) : StreamItem
  /-- The read of the underlying file fails with this error. -/
  | readFailure (err : GoError) : StreamItem

/-- The state of a `json.Decoder`: the input not yet consumed and the field `err`. -/
structure Decoder where
  input : List StreamItem
  err : Option GoError

/-- The function `json.NewDecoder`. -/
def NewDecoder (file : List StreamItem) : Decoder :=
  { input := file, err := none }

/-- The method `Decode` of `encoding/json`, which is not part of this repository.
A call first answers the stored `dec.err` if there is one. Otherwise it reads the
next value: at the end of the input it stores and answers `io.EOF`; a syntax error
or a read error is stored in `dec.err` and answered, and the read position stays;
an unmarshal error is answered after the whole value was consumed and is not stored. -/
def Decoder.Decode (dec : Decoder) : Except GoError OperatorIndexEntry × Decoder :=
  match dec.err with
  | some err => (.error err, dec)
  | none =>
    match dec.input with
    | [] => (.error .EOF, { dec with err := some .EOF })
    | .value entry :: rest => (.ok entry, { dec with input := rest })
    | .mismatch msg :: rest => (.error (.other msg), { dec with input := rest })
    | .malformed msg :: _ => (.error (.other msg), { dec with err := some (.other msg) })
    | .readFailure err :: _ => (.error err, { dec with err := some err })

/-- The variables of `ParseOperatorIndex` that its loop changes, and what it printed. -/
structure LoopState where
  results : List ArchitectureSupport
  entryCount : Nat
  stdout : List String
  deriving DecidableEq, Repr

/-- The `for` loop of `ParseOperatorIndex` over any decoder `decode` with state `σ`.
Each turn of the loop uses one unit of fuel; `none` means the fuel ran out before a
`break`. The bundle decoded as number `n` is extracted with the orders `orders n`. -/
def parseLoop {σ : Type} (decode : σ → Except GoError OperatorIndexEntry × σ)
    (orders : Nat → Nat → RangeOrder) : Nat → σ → LoopState → Option LoopState
  | 0, _, _ => none
  | fuel + 1, dec, st =>
    match decode dec with
    | (.error err, dec1) =>
      if err = GoError.EOF then some st
      else if stringsContains err.Error "EOF" then some st
      else
        parseLoop decode orders fuel dec1
          { st with stdout := st.stdout ++
              ["Warning: Failed to parse entry " ++ toString (st.entryCount + 1) ++ ": "
                ++ err.Error ++ "\n"] }
    | (.ok entry, dec1) =>
      let counted := { st with entryCount := st.entryCount + 1 }
      if entry.Schema ≠ "olm.bundle" then parseLoop decode orders fuel dec1 counted
      else
        match extractArchitectureSupport (orders counted.entryCount) entry with
        | some archSupport =>
          parseLoop decode orders fuel dec1
            { counted with results := counted.results ++ [archSupport] }
        | none => parseLoop decode orders fuel dec1 counted

/-- The two results of `ParseOperatorIndex` and what it printed. -/
structure ParseReturn where
  results : List ArchitectureSupport
  err : Option GoError
  stdout : List String
  deriving DecidableEq, Repr

/-- The state of the loop variables before the first turn. -/
def LoopState.initial : LoopState :=
  { results := [], entryCount := 0, stdout := [] }

/-- The function `ParseOperatorIndex`; `osOpen` is `os.Open` on the file system at hand. -/
def ParseOperatorIndex (osOpen : String → Except GoError (List StreamItem))
    (orders : Nat → Nat → RangeOrder) (fuel : Nat) (filePath : String) : Option ParseReturn :=
  match osOpen filePath with
  | .error err =>
    some { results := [], err := some (.wrap ("failed to open file: " ++ err.Error) err),
           stdout := [] }
  | .ok file =>
    match parseLoop Decoder.Decode orders fuel (NewDecoder file) LoopState.initial with
    | none => none
    | some st =>
      some { results := st.results, err := none,
             stdout := st.stdout ++ ["Processed " ++ toString st.entryCount ++ " entries\n"] }

/-! ### Concrete orders and records -/

/-- A range order that visits the arm64 key before the amd64 key. -/
def arm64First : RangeOrder :=
  ⟨[("operatorframework.io/arch.arm64", .ARM64), ("operatorframework.io/arch.amd64", .AMD64),
    ("operatorframework.io/arch.ppc64le", .PPC64LE), ("operatorframework.io/arch.s390x", .S390X)],
   by decide⟩

/-- A metadata property whose labels are the given map. -/
def metadataProperty (labels : JMap) : Property :=
  { Typ := "olm.csv.metadata", Value := .object [("labels", .object labels)] }

/-- The labels of the round-trip scenario: amd64 and arm64 valued `"supported"`. -/
def scenarioLabels : JMap :=
  [("operatorframework.io/arch.amd64", .string "supported"),
   ("operatorframework.io/arch.arm64", .string "supported")]

/-- The record of the round-trip scenario: bundle foo.v1 of package foo with the
amd64 and arm64 labels valued `"supported"`. -/
def scenarioEntry : OperatorIndexEntry :=
  { Schema := "olm.bundle", Name := "foo.v1", Package := "foo", Image := "",
    Properties := [metadataProperty scenarioLabels],
    RelatedImages := [] }

/-- A bundle with two metadata properties: the first labels amd64 and arm64
`"supported"`, the second labels amd64 `"unsupported"`. -/
def overwrittenEntry : OperatorIndexEntry :=
  { Schema := "olm.bundle", Name := "bar.v1", Package := "bar", Image := "",
    Properties :=
      [metadataProperty scenarioLabels,
       metadataProperty [("operatorframework.io/arch.amd64", .string "unsupported")]],
    RelatedImages := [] }

/-- A bundle with two metadata properties that both label amd64 `"supported"`. -/
def repeatedEntry : OperatorIndexEntry :=
  { Schema := "olm.bundle", Name := "baz.v1", Package := "baz", Image := "",
    Properties :=
      [metadataProperty [("operatorframework.io/arch.amd64", .string "supported")],
       metadataProperty [("operatorframework.io/arch.amd64", .string "supported")]],
    RelatedImages := [] }

/-- The bundle of `TestExtractArchitectureSupport` that has no architecture label:
its only property is of type `olm.package`. -/
def packageOnlyEntry : OperatorIndexEntry :=
  { Schema := "olm.bundle", Name := "test-bundle", Package := "test-package", Image := "",
    Properties :=
      [{ Typ := "olm.package",
         Value := .object [("packageName", .string "test-package"),
                           ("version", .string "1.0.0")] }],
    RelatedImages := [] }

/-- Labels that give every architecture a string other than `"supported"`, or none. -/
def mixedLabels : JMap :=
  [("operatorframework.io/arch.amd64", .string "supported"),
   ("operatorframework.io/arch.arm64", .string "unsupported"),
   ("operatorframework.io/arch.ppc64le", .string ""),
   ("operatorframework.io/arch.s390x", .string "unknown")]

/-- The record of the round-trip scenario as the spec expects it. -/
def scenarioRecord : ArchitectureSupport :=
  { OperatorName := "foo.v1", BundleName := "foo.v1", Package := "foo", Image := "",
    SupportedArchs := ["amd64", "arm64"], AMD64 := "supported", ARM64 := "supported",
    PPC64LE := "", S390X := "" }

/-- The record extracted from `overwrittenEntry`. -/
def overwrittenRecord : ArchitectureSupport :=
  { OperatorName := "bar.v1", BundleName := "bar.v1", Package := "bar", Image := "",
    SupportedArchs := ["amd64", "arm64"], AMD64 := "unsupported", ARM64 := "supported",
    PPC64LE := "", S390X := "" }

/-- A status field that reads `"supported"` has its architecture in the list. -/
def StatusListed (a : ArchitectureSupport) : Prop :=
  ∀ f : ArchField, f.get a = "supported" → f.name ∈ a.SupportedArchs

/-- A second bundle with a supported label. -/
def secondBundle : OperatorIndexEntry :=
  { Schema := "olm.bundle", Name := "qux.v2", Package := "qux", Image := "",
    Properties := [metadataProperty [("operatorframework.io/arch.s390x", .string "supported")]],
    RelatedImages := [] }

/-- The record extracted from `secondBundle`. -/
def secondRecord : ArchitectureSupport :=
  { OperatorName := "qux.v2", BundleName := "qux.v2", Package := "qux", Image := "",
    SupportedArchs := ["s390x"], AMD64 := "", ARM64 := "", PPC64LE := "",
    S390X := "supported" }

/-- A package entry, of schema `olm.package`. -/
def packageEntry : OperatorIndexEntry :=
  { Schema := "olm.package", Name := "foo", Package := "", Image := "", Properties := [],
    RelatedImages := [] }

/-- The text of the syntax error of `encoding/json` for a value that starts with a
closing brace. -/
def syntaxErrorText : String :=
  "invalid character \x27\x7d\x27 looking for beginning of value"

/-- A well-formed bundle, then bytes that are not JSON, then another well-formed
bundle. -/
def brokenStream : List StreamItem :=
  [.value scenarioEntry, .malformed syntaxErrorText, .value secondBundle]

/-- The same stream without the bytes that are not JSON. -/
def repairedStream : List StreamItem :=
  [.value scenarioEntry, .value secondBundle]

/-- A file system that holds one file. -/
def singleFile (name : String) (content : List StreamItem) :
    String → Except GoError (List StreamItem) :=
  fun path =>
    if path = name then .ok content
    else .error (.other ("open " ++ path ++ ": no such file or directory"))

/-- The records the loop appends for a run of decoded entries, the first of which
is counted as number `n`: the non-absent extractions of the entries of schema
`olm.bundle`, in stream order. -/
def bundleRecords (orders : Nat → Nat → RangeOrder) (n : Nat)
    (entries : List OperatorIndexEntry) : List ArchitectureSupport :=
  (entries.enumFrom n).filterMap
    (fun ne => if ne.2.Schema = "olm.bundle" then extractArchitectureSupport (orders ne.1) ne.2
      else none)

/-- The loop variables after one turn of the loop on a decoded value. -/
def countEntry (orders : Nat → Nat → RangeOrder) (st : LoopState) (entry : OperatorIndexEntry) :
    LoopState :=
  { st with
    entryCount := st.entryCount + 1
    results := st.results ++ bundleRecords orders (st.entryCount + 1) [entry] }

/-- A stream of four well-formed values: two bundles with supported labels, a package
entry and a bundle without architecture labels between them. -/
def mixedEntries : List OperatorIndexEntry :=
  [scenarioEntry, packageEntry, packageOnlyEntry, secondBundle]

/-- A property of type `olm.package`. -/
def packageProperty : Property :=
  { Typ := "olm.package", Value := .object [("packageName", .string "foo")] }

/-- A property of type `olm.csv.metadata` whose value is a string, not a mapping. -/
def textProperty : Property :=
  { Typ := "olm.csv.metadata", Value := .string "none" }

/-- A bundle whose metadata property sits between a property of another type and a
metadata property whose value is not a mapping. -/
def paddedEntry : OperatorIndexEntry :=
  { scenarioEntry with
    Properties := [packageProperty, metadataProperty scenarioLabels, textProperty] }

/-- Labels that hold, next to a supported amd64, a recognized key with a value that
is not a string and a key that is not recognized. -/
def noisyLabels : JMap :=
  [("operatorframework.io/arch.amd64", .string "supported"),
   ("operatorframework.io/arch.arm64", .bool true),
   ("operatorframework.io/os.linux", .string "supported")]

/-- A bundle with five metadata properties that all label amd64 `"supported"`. -/
def fiveFoldEntry : OperatorIndexEntry :=
  { Schema := "olm.bundle", Name := "baz.v5", Package := "baz", Image := "",
    Properties :=
      List.replicate 5
        (metadataProperty [("operatorframework.io/arch.amd64", .string "supported")]),
    RelatedImages := [] }

/-- A bundle whose only property carries `noisyLabels`. -/
def noisyEntry : OperatorIndexEntry :=
  { scenarioEntry with Properties := [metadataProperty noisyLabels] }

/-- The record extracted from `repeatedEntry`. -/
def repeatedRecord : ArchitectureSupport :=
  { OperatorName := "baz.v1", BundleName := "baz.v1", Package := "baz", Image := "",
    SupportedArchs := ["amd64", "amd64"], AMD64 := "supported", ARM64 := "", PPC64LE := "",
    S390X := "" }

/-- The record extracted from `fiveFoldEntry`. -/
def fiveFoldRecord : ArchitectureSupport :=
  { OperatorName := "baz.v5", BundleName := "baz.v5", Package := "baz", Image := "",
    SupportedArchs := ["amd64", "amd64", "amd64", "amd64", "amd64"], AMD64 := "supported",
    ARM64 := "", PPC64LE := "", S390X := "" }

/-! ## cmd/sorter/main.go -/

/-- The slice `validArchitectures`. -/
def validArchitectures : List String := ["amd64", "arm64", "ppc64le", "s390x"]

/-- The loop of `isValidArchitecture` over the rest of `validArchitectures`:
`lowered` is `strings.ToLower(arch)`. -/
def isValidArchitectureLoop (lowered : String) : List String → Bool
  | [] => false
  | valid :: rest => if lowered = valid then true else isValidArchitectureLoop lowered rest

/-- The function `isValidArchitecture`. The library function `strings.ToLower` is
the parameter `toLower`. -/
def isValidArchitecture (toLower : String → String) (arch : String) : Bool :=
  isValidArchitectureLoop (toLower arch) validArchitectures

/-- The function `filterByOperatorName`; the loop appends to `filtered`, which
starts as the nil slice. -/
def filterByOperatorName (toLower : String → String) (results : List ArchitectureSupport)
    (operatorName : String) : List ArchitectureSupport :=
  let operatorName := toLower operatorName
  results.foldl
    (fun filtered result =>
      let packageName := toLower result.Package
      let bundleName := toLower result.BundleName
      if stringsContains packageName operatorName || stringsContains bundleName operatorName then
        filtered ++ [result]
      else filtered)
    []

/-- The `switch arch` of `filterByArchitecture`: the value of `supported` for one
result, `false` when no case matches. -/
def archSupported (arch : String) (result : ArchitectureSupport) : Bool :=
  if arch = "amd64" then decide (result.AMD64 = "supported")
  else if arch = "arm64" then decide (result.ARM64 = "supported")
  else if arch = "ppc64le" then decide (result.PPC64LE = "supported")
  else if arch = "s390x" then decide (result.S390X = "supported")
  else false

/-- The function `filterByArchitecture`. -/
def filterByArchitecture (toLower : String → String) (results : List ArchitectureSupport)
    (arch : String) : List ArchitectureSupport :=
  let arch := toLower arch
  results.foldl
    (fun filtered result => if archSupported arch result then filtered ++ [result] else filtered)
    []

/-- The comparison `a < b` of two Go strings as character lists: the first
difference decides, and a proper prefix is smaller. Go compares byte by byte, which
on UTF-8 text is the order of the code points. -/
def lessChars : List Char → List Char → Bool
  | _, [] => false
  | [], _ :: _ => true
  | a :: as, b :: bs => if a = b then lessChars as bs else decide (a < b)

/-- The comparison `a < b` of two Go strings. -/
def stringLess (a b : String) : Bool := lessChars a.data b.data

/-- The function literal that `main` passes to `sort.Slice`, on the two elements
`results[i]` and `results[j]`. -/
def sortLess (a b : ArchitectureSupport) : Bool :=
  if a.Package = b.Package then stringLess a.BundleName b.BundleName
  else stringLess a.Package b.Package

/-- Lower-casing of the ASCII letters, which is what `strings.ToLower` does on
ASCII text. -/
def asciiToLower (s : String) : String := ⟨s.data.map Char.toLower⟩

/-- The string the last metadata property that holds a string for the label of the
architecture carries, in properties order; `""` when no metadata property holds one. -/
def lastLabelString (entry : OperatorIndexEntry) (f : ArchField) : String :=
  (((metadataLabelsOf entry).filterMap (fun labels => labelString labels f.label)).getLast?).getD ""

/-- A bundle with three metadata properties: amd64 is labelled "supported", then
"unsupported", then not at all; s390x is labelled "supported" by the last one. -/
def threeFoldEntry : OperatorIndexEntry :=
  { Schema := "olm.bundle", Name := "tri.v1", Package := "tri", Image := "",
    Properties :=
      [metadataProperty scenarioLabels,
       metadataProperty [("operatorframework.io/arch.amd64", .string "unsupported")],
       metadataProperty [("operatorframework.io/arch.s390x", .string "supported")]],
    RelatedImages := [] }

/-- The record extracted from `threeFoldEntry`. -/
def threeFoldRecord : ArchitectureSupport :=
  { OperatorName := "tri.v1", BundleName := "tri.v1", Package := "tri", Image := "",
    SupportedArchs := ["amd64", "arm64", "s390x"], AMD64 := "unsupported",
    ARM64 := "supported", PPC64LE := "", S390X := "supported" }

/-- The record extracted from the scenario bundle when the range visits the arm64
key first. -/
def arm64FirstRecord : ArchitectureSupport :=
  { scenarioRecord with SupportedArchs := ["arm64", "amd64"] }

/-- The text of a read error of the operating system. -/
def readErrorText : String := "read index.json: input/output error"

/-- A well-formed bundle, after which the read of the file fails. -/
def failingReadStream : List StreamItem :=
  [.value scenarioEntry, .readFailure (.other readErrorText)]

/-- A well-formed bundle, after which the file ends inside a value: the decoder
answers `io.ErrUnexpectedEOF`, whose text is "unexpected EOF". -/
def truncatedStream : List StreamItem :=
  [.value scenarioEntry, .readFailure (.other "unexpected EOF")]

/-- Whether the item is a value that `Decode` decodes. -/
def StreamItem.isValue : StreamItem → Bool
  | .value _ => true
  | _ => false

/-- Whether the item is a value that decodes, or one that fails to unmarshal with
an error text without "EOF": the loop goes past such an item. -/
def StreamItem.passable : StreamItem → Bool
  | .value _ => true
  | .mismatch msg => !stringsContains msg "EOF"
  | _ => false

/-- The number of items of a stream that decode. -/
def decodedValues (items : List StreamItem) : Nat :=
  (items.filter StreamItem.isValue).length

/-- The text of an unmarshal error of `encoding/json`. -/
def mismatchText : String :=
  "json: cannot unmarshal number into Go struct field OperatorIndexEntry.name of type string"

/-- A bundle, a value that does not unmarshal, a package entry and a bundle without
architecture labels. -/
def mismatchStream : List StreamItem :=
  [.value scenarioEntry, .mismatch mismatchText, .value packageEntry, .value packageOnlyEntry]

/-- What the documentation of the Go package `sort` asks of a less function:
nothing is less than itself, less is transitive, and so is its negation. These are
the strict weak orderings. -/
def StrictWeakOrder {α : Type} (less : α → α → Bool) : Prop :=
  (∀ a, less a a = false) ∧
  (∀ a b c, less a b = true → less b c = true → less a c = true) ∧
  (∀ a b c, less a b = false → less b c = false → less a c = false)

/-- The lexicographic order on the pairs (Package, BundleName): the first record is
not after the second. -/
def lexLE (a b : ArchitectureSupport) : Prop :=
  stringLess a.Package b.Package = true ∨
    (a.Package = b.Package ∧
      (stringLess a.BundleName b.BundleName = true ∨ a.BundleName = b.BundleName))

/-- Insertion sort by a less function: a sort that meets the contract of
`sort.Slice`, used to show that the contract can be met. -/
def insertionSortBy {α : Type} (less : α → α → Bool) (l : List α) : List α :=
  l.insertionSort (fun a b => less b a = false)

/-- The input of a path that is a directory: `os.Open` succeeds and every read
fails with an error that names the path. -/
def directoryStream (path : String) : List StreamItem :=
  [.readFailure (.other ("read " ++ path ++ ": is a directory"))]

/-- Whether the loop of `ParseOperatorIndex` breaks on this error: it is `io.EOF`
or its text contains "EOF". -/
def endsLoop (err : GoError) : Bool :=
  decide (err = GoError.EOF) || stringsContains err.Error "EOF"

/-- Whether the answer of a decode attempt makes the loop break. -/
def answerEndsLoop : Except GoError OperatorIndexEntry → Bool
  | .error err => endsLoop err
  | .ok _ => false

/-- Whether a decode attempt succeeded. -/
def answerDecoded : Except GoError OperatorIndexEntry → Bool
  | .error _ => false
  | .ok _ => true

/-- The answers of the first `n` decode attempts on a decoder, in order. -/
def decodeAnswers {σ : Type} (decode : σ → Except GoError OperatorIndexEntry × σ) :
    Nat → σ → List (Except GoError OperatorIndexEntry)
  | 0, _ => []
  | n + 1, dec => (decode dec).1 :: decodeAnswers decode n (decode dec).2

/-- Whether the decode attempt on the item makes the loop break: an unmarshal
error or a syntax error whose text contains "EOF", or a read error that is
`io.EOF` or whose text contains "EOF". -/
def StreamItem.ending : StreamItem → Bool
  | .value _ => false
  | .mismatch msg => stringsContains msg "EOF"
  | .malformed msg => stringsContains msg "EOF"
  | .readFailure err => endsLoop err

/-- The items the loop goes past: those before the first item that is neither a
value that decodes nor an unmarshal failure without "EOF" in its text. -/
def itemsPassed (file : List StreamItem) : List StreamItem :=
  file.takeWhile StreamItem.passable

/-- Whether the loop leaves the stream: after the items it goes past, the stream is
at its end or the next item makes the loop break. -/
def leavesLoop (file : List StreamItem) : Bool :=
  match file.dropWhile StreamItem.passable with
  | [] => true
  | item :: _ => item.ending

/-! ## Lemmas on the extractor -/

theorem archMap_eq : archMap = ArchField.all.map (fun f => (f.label, f)) := by decide

theorem mem_archMap_iff (b : String × ArchField) : b ∈ archMap ↔ b = (b.2.label, b.2) := by
  rw [archMap_eq]
  constructor
  · intro h
    simp only [List.mem_map] at h
    obtain ⟨f, _, rfl⟩ := h
    rfl
  · intro h
    rw [h]
    simp only [List.mem_map]
    exact ⟨b.2, by cases b.2 <;> decide, rfl⟩

theorem name_injective (f g : ArchField) (h : f.name = g.name) : f = g := by
  cases f <;> cases g <;> first | rfl | exact absurd h (by decide)

theorem label_injective (f g : ArchField) (h : f.label = g.label) : f = g := by
  cases f <;> cases g <;> first | rfl | exact absurd h (by decide)

theorem set_SupportedArchs (a : ArchitectureSupport) (v : String) (f : ArchField) :
    (f.set a v).SupportedArchs = a.SupportedArchs := by
  cases f <;> rfl

theorem get_set (a : ArchitectureSupport) (v : String) (f g : ArchField) :
    g.get (f.set a v) = if f = g then v else g.get a := by
  cases f <;> cases g <;> simp [ArchField.get, ArchField.set]

theorem get_withSupportedArchs (a : ArchitectureSupport) (l : List String) (g : ArchField) :
    g.get { a with SupportedArchs := l } = g.get a := by
  cases g <;> rfl

theorem rangeBody_SupportedArchs (labels : JMap) (a : ArchitectureSupport) (b : String × ArchField) :
    (rangeBody labels a b).SupportedArchs =
      a.SupportedArchs ++
        (if labelString labels b.1 = some "supported" then [archNamesIndex b.1] else []) := by
  unfold rangeBody
  cases hv : labelString labels b.1 with
  | none => simp
  | some v =>
    by_cases h : v = "supported"
    · simp [h, set_SupportedArchs]
    · simp [h, set_SupportedArchs]

theorem rangeBody_get (labels : JMap) (a : ArchitectureSupport) (b : String × ArchField)
    (g : ArchField) :
    g.get (rangeBody labels a b) =
      if b.2 = g then (labelString labels b.1).getD (g.get a) else g.get a := by
  unfold rangeBody
  cases hv : labelString labels b.1 with
  | none => simp
  | some v =>
    by_cases h : v = "supported"
    · simp [h, get_withSupportedArchs, get_set]
    · simp [h, get_set]

theorem rangeBody_names (labels : JMap) (a : ArchitectureSupport) (b : String × ArchField) :
    (rangeBody labels a b).OperatorName = a.OperatorName ∧
    (rangeBody labels a b).BundleName = a.BundleName ∧
    (rangeBody labels a b).Package = a.Package ∧
    (rangeBody labels a b).Image = a.Image := by
  unfold rangeBody
  obtain ⟨k, f⟩ := b
  cases labelString labels k with
  | none => simp
  | some v =>
    by_cases h : v = "supported" <;> cases f <;> simp [h, ArchField.set]

theorem foldl_SupportedArchs (labels : JMap) (l : List (String × ArchField))
    (a : ArchitectureSupport) :
    (l.foldl (rangeBody labels) a).SupportedArchs = a.SupportedArchs ++ appendedNames labels l := by
  induction l generalizing a with
  | nil => simp [appendedNames]
  | cons b l ih =>
    rw [List.foldl_cons, ih, rangeBody_SupportedArchs]
    by_cases h : labelString labels b.1 = some "supported"
    · simp [appendedNames, h]
    · simp [appendedNames, h]

theorem foldl_names (labels : JMap) (l : List (String × ArchField)) (a : ArchitectureSupport) :
    (l.foldl (rangeBody labels) a).OperatorName = a.OperatorName ∧
    (l.foldl (rangeBody labels) a).BundleName = a.BundleName ∧
    (l.foldl (rangeBody labels) a).Package = a.Package ∧
    (l.foldl (rangeBody labels) a).Image = a.Image := by
  induction l generalizing a with
  | nil => simp
  | cons b l ih =>
    rw [List.foldl_cons]
    obtain ⟨h1, h2, h3, h4⟩ := ih (rangeBody labels a b)
    obtain ⟨g1, g2, g3, g4⟩ := rangeBody_names labels a b
    exact ⟨h1.trans g1, h2.trans g2, h3.trans g3, h4.trans g4⟩

theorem foldl_get (labels : JMap) (g : ArchField) (l : List (String × ArchField))
    (a : ArchitectureSupport) (hl : ∀ b ∈ l, b.2 = g → b.1 = g.label) :
    g.get (l.foldl (rangeBody labels) a) =
      if (g.label, g) ∈ l then (labelString labels g.label).getD (g.get a) else g.get a := by
  induction l generalizing a with
  | nil => simp
  | cons b l ih =>
    rw [List.foldl_cons, ih _ (fun c hc => hl c (List.mem_cons_of_mem _ hc)), rangeBody_get]
    obtain ⟨k, f⟩ := b
    by_cases hf : f = g
    · have hk : k = g.label := hl (k, f) (List.mem_cons_self _ _) hf
      subst hf hk
      cases labelString labels f.label <;> simp
    · have hne : ((g.label, g) : String × ArchField) ≠ (k, f) := by
        intro h
        exact hf (congrArg Prod.snd h).symm
      simp [hf, hne]

theorem visits_mem_iff (order : RangeOrder) (b : String × ArchField) :
    b ∈ order.visits ↔ b = (b.2.label, b.2) := by
  rw [order.perm.mem_iff, mem_archMap_iff]

theorem extractArchLabels_get (order : RangeOrder) (labels : JMap) (a : ArchitectureSupport)
    (g : ArchField) :
    g.get (extractArchLabels order labels a) = (labelString labels g.label).getD (g.get a) := by
  unfold extractArchLabels
  rw [foldl_get]
  · have : (g.label, g) ∈ order.visits := (visits_mem_iff order _).2 rfl
    simp [this]
  · intro b hb hg
    have := (visits_mem_iff order b).1 hb
    rw [this, hg]

theorem extractArchLabels_SupportedArchs (order : RangeOrder) (labels : JMap)
    (a : ArchitectureSupport) :
    (extractArchLabels order labels a).SupportedArchs =
      a.SupportedArchs ++ appendedNames labels order.visits :=
  foldl_SupportedArchs labels order.visits a

theorem extractArchLabels_names (order : RangeOrder) (labels : JMap) (a : ArchitectureSupport) :
    (extractArchLabels order labels a).OperatorName = a.OperatorName ∧
    (extractArchLabels order labels a).BundleName = a.BundleName ∧
    (extractArchLabels order labels a).Package = a.Package ∧
    (extractArchLabels order labels a).Image = a.Image :=
  foldl_names labels order.visits a

theorem mem_appendedNames (order : RangeOrder) (labels : JMap) (s : String) :
    s ∈ appendedNames labels order.visits ↔
      ∃ f : ArchField, labelString labels f.label = some "supported" ∧ s = f.name := by
  unfold appendedNames
  simp only [List.mem_map, List.mem_filter, decide_eq_true_eq]
  constructor
  · rintro ⟨b, ⟨hb, hs⟩, rfl⟩
    have hb2 := (visits_mem_iff order b).1 hb
    refine ⟨b.2, ?_, ?_⟩
    · rw [hb2] at hs; exact hs
    · rw [hb2]; rfl
  · rintro ⟨f, hf, rfl⟩
    exact ⟨(f.label, f), ⟨(visits_mem_iff order _).2 rfl, hf⟩, rfl⟩

theorem appendedNames_perm (order : RangeOrder) (labels : JMap) :
    (appendedNames labels order.visits).Perm (appendedNames labels archMap) :=
  (order.perm.filter _).map _

theorem appendedNames_archMap_sublist (labels : JMap) :
    (appendedNames labels archMap).Sublist ["amd64", "arm64", "ppc64le", "s390x"] := by
  have h : archMap.map (fun b => archNamesIndex b.1) = ["amd64", "arm64", "ppc64le", "s390x"] := by
    decide
  rw [← h]
  exact (List.filter_sublist _).map _

theorem appendedNames_nodup (order : RangeOrder) (labels : JMap) :
    (appendedNames labels order.visits).Nodup := by
  rw [(appendedNames_perm order labels).nodup_iff]
  exact (appendedNames_archMap_sublist labels).nodup (by decide)

theorem appendedNames_length (order : RangeOrder) (labels : JMap) :
    (appendedNames labels order.visits).length ≤ 4 := by
  rw [(appendedNames_perm order labels).length_eq]
  exact (appendedNames_archMap_sublist labels).length_le

theorem appendedNames_eq (labels : JMap) (order : RangeOrder) :
    appendedNames labels order.visits =
      ((order.visits.map Prod.snd).filter
        (fun f => decide (labelString labels f.label = some "supported"))).map ArchField.name := by
  have key : ∀ l : List (String × ArchField), (∀ b ∈ l, b = (b.2.label, b.2)) →
      appendedNames labels l =
        ((l.map Prod.snd).filter
          (fun f => decide (labelString labels f.label = some "supported"))).map
            ArchField.name := by
    intro l
    induction l with
    | nil => intro _; rfl
    | cons b l ih =>
      intro hl
      have hb : b = (b.2.label, b.2) := hl b (List.mem_cons_self _ _)
      have ih2 := ih (fun c hc => hl c (List.mem_cons_of_mem _ hc))
      have hb1 : b.1 = b.2.label := congrArg Prod.fst hb
      unfold appendedNames at ih2 ⊢
      by_cases h : labelString labels b.2.label = some "supported"
      · simp only [List.filter_cons, List.map_cons, hb1, h, decide_True, if_true]
        rw [← ih2]
        rfl
      · simp only [List.filter_cons, List.map_cons, hb1, h, decide_False]
        exact ih2
  exact key order.visits (fun b hb => (visits_mem_iff order b).1 hb)

theorem visitProperties_eq (orders : Nat → RangeOrder) (ps : List Property) (k : Nat)
    (a : ArchitectureSupport) :
    visitProperties orders k ps a = applyLabels orders k (ps.filterMap metadataLabels) a := by
  induction ps generalizing k a with
  | nil => rfl
  | cons p ps ih =>
    unfold visitProperties
    cases h : metadataLabels p with
    | none => simp only [List.filterMap_cons, h]; exact ih k a
    | some labels => simp only [List.filterMap_cons, h, applyLabels]; exact ih _ _

theorem applyLabels_append (orders : Nat → RangeOrder) (l1 l2 : List JMap) (k : Nat)
    (a : ArchitectureSupport) :
    applyLabels orders k (l1 ++ l2) a =
      applyLabels orders (k + l1.length) l2 (applyLabels orders k l1 a) := by
  induction l1 generalizing k a with
  | nil => rfl
  | cons x l1 ih =>
    show applyLabels orders (k + 1) (l1 ++ l2) _ =
      applyLabels orders (k + (l1.length + 1)) l2 (applyLabels orders (k + 1) l1 _)
    rw [ih]
    congr 1
    omega

theorem applyLabels_names (orders : Nat → RangeOrder) (ls : List JMap) (k : Nat)
    (a : ArchitectureSupport) :
    (applyLabels orders k ls a).OperatorName = a.OperatorName ∧
    (applyLabels orders k ls a).BundleName = a.BundleName ∧
    (applyLabels orders k ls a).Package = a.Package ∧
    (applyLabels orders k ls a).Image = a.Image := by
  induction ls generalizing k a with
  | nil => exact ⟨rfl, rfl, rfl, rfl⟩
  | cons x ls ih =>
    obtain ⟨h1, h2, h3, h4⟩ := ih (k + 1) (extractArchLabels (orders k) x a)
    obtain ⟨g1, g2, g3, g4⟩ := extractArchLabels_names (orders k) x a
    exact ⟨h1.trans g1, h2.trans g2, h3.trans g3, h4.trans g4⟩

theorem applyLabels_mem (orders : Nat → RangeOrder) (ls : List JMap) (k : Nat)
    (a : ArchitectureSupport) (s : String) :
    s ∈ (applyLabels orders k ls a).SupportedArchs ↔
      s ∈ a.SupportedArchs ∨
        ∃ labels ∈ ls, ∃ f : ArchField, labelString labels f.label = some "supported" ∧
          s = f.name := by
  induction ls generalizing k a with
  | nil => simp [applyLabels]
  | cons x ls ih =>
    simp only [applyLabels]
    rw [ih, extractArchLabels_SupportedArchs, List.mem_append, mem_appendedNames]
    simp only [List.mem_cons, exists_eq_or_imp, or_assoc]

theorem extractArchLabels_statusListed (order : RangeOrder) (labels : JMap)
    (a : ArchitectureSupport) (h : StatusListed a) :
    StatusListed (extractArchLabels order labels a) := by
  intro f hf
  rw [extractArchLabels_get] at hf
  rw [extractArchLabels_SupportedArchs, List.mem_append, mem_appendedNames]
  cases hl : labelString labels f.label with
  | none =>
    rw [hl] at hf
    exact Or.inl (h f hf)
  | some v =>
    rw [hl] at hf
    have hv : v = "supported" := hf
    exact Or.inr ⟨f, by rw [hl, hv], rfl⟩

theorem applyLabels_statusListed (orders : Nat → RangeOrder) (ls : List JMap) (k : Nat)
    (a : ArchitectureSupport) (h : StatusListed a) :
    StatusListed (applyLabels orders k ls a) := by
  induction ls generalizing k a with
  | nil => exact h
  | cons x ls ih => exact ih _ _ (extractArchLabels_statusListed _ _ _ h)

theorem initialSupport_get (entry : OperatorIndexEntry) (f : ArchField) :
    f.get (initialSupport entry) = "" := by
  cases f <;> rfl

theorem initialSupport_statusListed (entry : OperatorIndexEntry) :
    StatusListed (initialSupport entry) := by
  intro f hf
  rw [initialSupport_get] at hf
  exact absurd hf (by decide)

theorem labelledSupported_iff (entry : OperatorIndexEntry) (f : ArchField) :
    labelledSupported entry f = true ↔
      ∃ labels ∈ metadataLabelsOf entry, labelString labels f.label = some "supported" := by
  simp [labelledSupported]

/-- The record built by `extractArchitectureSupport` before its final test. -/
theorem extract_eq (orders : Nat → RangeOrder) (entry : OperatorIndexEntry) :
    extractArchitectureSupport orders entry =
      if (applyLabels orders 0 (metadataLabelsOf entry) (initialSupport entry)).SupportedArchs.length
          > 0 then
        some (applyLabels orders 0 (metadataLabelsOf entry) (initialSupport entry))
      else none := by
  unfold extractArchitectureSupport metadataLabelsOf
  rw [visitProperties_eq]

theorem extract_some (orders : Nat → RangeOrder) (entry : OperatorIndexEntry)
    (r : ArchitectureSupport) (h : extractArchitectureSupport orders entry = some r) :
    r = applyLabels orders 0 (metadataLabelsOf entry) (initialSupport entry) := by
  rw [extract_eq] at h
  split at h
  · exact (Option.some.inj h).symm
  · exact absurd h (by simp)

theorem built_mem (orders : Nat → RangeOrder) (entry : OperatorIndexEntry) (s : String) :
    s ∈ (applyLabels orders 0 (metadataLabelsOf entry) (initialSupport entry)).SupportedArchs ↔
      ∃ f : ArchField, labelledSupported entry f = true ∧ s = f.name := by
  rw [applyLabels_mem]
  simp only [labelledSupported_iff]
  constructor
  · rintro (h | ⟨labels, hl, f, hf, hs⟩)
    · exact absurd h (by simp [initialSupport])
    · exact ⟨f, ⟨labels, hl, hf⟩, hs⟩
  · rintro ⟨f, ⟨labels, hl, hf⟩, hs⟩
    exact Or.inr ⟨labels, hl, f, hf, hs⟩

theorem mem_metadataLabelsOf (entry : OperatorIndexEntry) (labels : JMap) :
    labels ∈ metadataLabelsOf entry ↔
      ∃ p ∈ entry.Properties, metadataLabels p = some labels := by
  simp [metadataLabelsOf, List.mem_filterMap]

theorem labelString_of_mapIndex (labels : JMap) (k v : String)
    (h : mapIndex labels k = some (.string v)) : labelString labels k = some v := by
  unfold labelString
  rw [h]

theorem labelString_of_mapIndex_none (labels : JMap) (k : String)
    (h : mapIndex labels k = none) : labelString labels k = none := by
  unfold labelString
  rw [h]

theorem metadataLabels_of_type_ne (p : Property) (h : p.Typ ≠ "olm.csv.metadata") :
    metadataLabels p = none := by
  unfold metadataLabels
  rw [if_neg h]

theorem built_single (orders : Nat → RangeOrder) (entry : OperatorIndexEntry) (labels : JMap)
    (h : metadataLabelsOf entry = [labels]) :
    applyLabels orders 0 (metadataLabelsOf entry) (initialSupport entry) =
      extractArchLabels (orders 0) labels (initialSupport entry) := by
  rw [h]
  rfl

/-! ## The claims -/

/-- C1, as amended. When some metadata property of a bundle record carries an
architecture label valued exactly "supported", extractArchitectureSupport returns a
record; a string is in its SupportedArchs exactly when it is the identifier of an
architecture that some metadata property labels "supported"; and when a single
property reaches extractArchLabels the list holds those identifiers once each in the
order in which the range over archMap visited the keys, which is the enumeration
order amd64, arm64, ppc64le, s390x when the range visits the keys in that order. -/
theorem extractArchitectureSupport_lists_supported (orders : Nat → RangeOrder)
    (entry : OperatorIndexEntry) (h : ∃ f : ArchField, labelledSupported entry f = true) :
    ∃ r, extractArchitectureSupport orders entry = some r ∧
      (∀ s, s ∈ r.SupportedArchs ↔ ∃ f : ArchField, labelledSupported entry f = true ∧ s = f.name) ∧
      (∀ labels, metadataLabelsOf entry = [labels] →
        r.SupportedArchs =
          (((orders 0).visits.map Prod.snd).filter (labelledSupported entry)).map ArchField.name) ∧
      (∀ labels, metadataLabelsOf entry = [labels] → (orders 0).visits = archMap →
        r.SupportedArchs = (ArchField.all.filter (labelledSupported entry)).map ArchField.name) := by
  obtain ⟨f, hf⟩ := h
  have hmem := built_mem orders entry
  have hpos : (applyLabels orders 0 (metadataLabelsOf entry) (initialSupport entry)).SupportedArchs.length
      > 0 := List.length_pos_of_mem ((hmem f.name).2 ⟨f, hf, rfl⟩)
  have hsingle : ∀ labels, metadataLabelsOf entry = [labels] →
      (applyLabels orders 0 (metadataLabelsOf entry) (initialSupport entry)).SupportedArchs =
        (((orders 0).visits.map Prod.snd).filter (labelledSupported entry)).map ArchField.name := by
    intro labels hl
    rw [built_single orders entry labels hl, extractArchLabels_SupportedArchs, appendedNames_eq]
    have hfun : (fun f => decide (labelString labels f.label = some "supported")) =
        labelledSupported entry := by
      funext g
      simp [labelledSupported, hl]
    rw [hfun]
    simp [initialSupport]
  refine ⟨_, by rw [extract_eq, if_pos hpos], hmem, hsingle, ?_⟩
  intro labels hl hv
  rw [hsingle labels hl, hv]
  rfl

/-- Witness for C1, as amended: the scenario record, ranged with arm64 first. -/
theorem extractArchitectureSupport_lists_supported_witness :
    (∃ f : ArchField, labelledSupported scenarioEntry f = true) ∧
    ∃ r, extractArchitectureSupport (fun _ => arm64First) scenarioEntry = some r ∧
      (∀ s, s ∈ r.SupportedArchs ↔
        ∃ f : ArchField, labelledSupported scenarioEntry f = true ∧ s = f.name) ∧
      (∀ labels, metadataLabelsOf scenarioEntry = [labels] →
        r.SupportedArchs =
          ((arm64First.visits.map Prod.snd).filter (labelledSupported scenarioEntry)).map
            ArchField.name) ∧
      (∀ labels, metadataLabelsOf scenarioEntry = [labels] → arm64First.visits = archMap →
        r.SupportedArchs =
          (ArchField.all.filter (labelledSupported scenarioEntry)).map ArchField.name) :=
  ⟨⟨.AMD64, by decide⟩,
    extractArchitectureSupport_lists_supported (fun _ => arm64First) scenarioEntry
      ⟨.AMD64, by decide⟩⟩

/-- Counterexample to C1 as stated: on the scenario record, a range that visits the
arm64 key first yields SupportedArchs = ["arm64", "amd64"], which is not the list of
the supported architectures in the enumeration order. -/
theorem supportedArchs_not_in_enumeration_order :
    ∃ r, extractArchitectureSupport (fun _ => arm64First) scenarioEntry = some r ∧
      r.SupportedArchs = ["arm64", "amd64"] ∧
      (ArchField.all.filter (labelledSupported scenarioEntry)).map ArchField.name
        = ["amd64", "arm64"] ∧
      r.SupportedArchs ≠
        (ArchField.all.filter (labelledSupported scenarioEntry)).map ArchField.name :=
  ⟨_, rfl, by decide, by decide, by decide⟩

/-- C2, as amended. For every record that extractArchitectureSupport returns and each
of the four architectures: a status field equal to "supported" puts the architecture
in SupportedArchs; the architecture is in SupportedArchs exactly when some metadata
property labels it "supported"; and when at most one property reaches
extractArchLabels, the architecture is in SupportedArchs if and only if its status
field equals "supported". -/
theorem supportedArchs_status_agreement (orders : Nat → RangeOrder)
    (entry : OperatorIndexEntry) (r : ArchitectureSupport)
    (h : extractArchitectureSupport orders entry = some r) (f : ArchField) :
    (f.get r = "supported" → f.name ∈ r.SupportedArchs) ∧
    (f.name ∈ r.SupportedArchs ↔ labelledSupported entry f = true) ∧
    ((metadataLabelsOf entry).length ≤ 1 →
      (f.name ∈ r.SupportedArchs ↔ f.get r = "supported")) := by
  have hr := extract_some orders entry r h
  have hlisted : f.get r = "supported" → f.name ∈ r.SupportedArchs := by
    rw [hr]
    exact applyLabels_statusListed orders _ 0 _ (initialSupport_statusListed entry) f
  have hmem : f.name ∈ r.SupportedArchs ↔ labelledSupported entry f = true := by
    rw [hr, built_mem]
    constructor
    · rintro ⟨g, hg, hn⟩
      rw [name_injective f g hn]
      exact hg
    · intro hf
      exact ⟨f, hf, rfl⟩
  refine ⟨hlisted, hmem, ?_⟩
  intro hlen
  refine ⟨?_, hlisted⟩
  intro hin
  have hsup := hmem.1 hin
  rw [labelledSupported_iff] at hsup
  obtain ⟨labels, hl, hs⟩ := hsup
  have hone : metadataLabelsOf entry = [labels] := by
    match hm : metadataLabelsOf entry, hl, hlen with
    | [x], hl, _ =>
      rw [List.mem_singleton] at hl
      rw [hl]
    | _ :: _ :: _, _, hlen => simp at hlen
  rw [hr, built_single orders entry labels hone, extractArchLabels_get, hs]
  rfl

/-- Witness for C2, as amended: the scenario record and its amd64 field. -/
theorem supportedArchs_status_agreement_witness :
    extractArchitectureSupport (fun _ => RangeOrder.literal) scenarioEntry = some scenarioRecord ∧
    (ArchField.AMD64.get scenarioRecord = "supported" →
      ArchField.AMD64.name ∈ scenarioRecord.SupportedArchs) ∧
    (ArchField.AMD64.name ∈ scenarioRecord.SupportedArchs ↔
      labelledSupported scenarioEntry .AMD64 = true) ∧
    ((metadataLabelsOf scenarioEntry).length ≤ 1 →
      (ArchField.AMD64.name ∈ scenarioRecord.SupportedArchs ↔
        ArchField.AMD64.get scenarioRecord = "supported")) :=
  ⟨by decide,
   supportedArchs_status_agreement (fun _ => RangeOrder.literal) scenarioEntry scenarioRecord
     (by decide) .AMD64⟩

/-- Counterexample to C2 as stated: a bundle whose first metadata property labels
amd64 "supported" and whose second labels it "unsupported" yields a record with
"amd64" in SupportedArchs although its AMD64 status field is "unsupported". -/
theorem supportedArchs_outlives_overwritten_status :
    extractArchitectureSupport (fun _ => RangeOrder.literal) overwrittenEntry =
      some overwrittenRecord ∧
    ArchField.AMD64.name ∈ overwrittenRecord.SupportedArchs ∧
    ArchField.AMD64.get overwrittenRecord = "unsupported" ∧
    ¬ (ArchField.AMD64.name ∈ overwrittenRecord.SupportedArchs ↔
        ArchField.AMD64.get overwrittenRecord = "supported") :=
  ⟨by decide, by decide, by decide, by decide⟩

/-- C4. A bundle record that has no property of type "olm.csv.metadata", or whose
metadata labels hold none of the four recognized architecture label keys, makes
extractArchitectureSupport return absent. -/
theorem extractArchitectureSupport_absent (orders : Nat → RangeOrder)
    (entry : OperatorIndexEntry)
    (h : (∀ p ∈ entry.Properties, p.Typ ≠ "olm.csv.metadata") ∨
         (∀ p ∈ entry.Properties, ∀ labels, metadataLabels p = some labels →
            ∀ f : ArchField, mapIndex labels f.label = none)) :
    extractArchitectureSupport orders entry = none := by
  have hnone : ∀ f : ArchField, ¬ labelledSupported entry f = true := by
    intro f hf
    rw [labelledSupported_iff] at hf
    obtain ⟨labels, hl, hs⟩ := hf
    obtain ⟨p, hp, hpl⟩ := (mem_metadataLabelsOf entry labels).1 hl
    rcases h with h | h
    · rw [metadataLabels_of_type_ne p (h p hp)] at hpl
      exact absurd hpl (by simp)
    · rw [labelString_of_mapIndex_none labels _ (h p hp labels hpl f)] at hs
      exact absurd hs (by simp)
  have hnil : (applyLabels orders 0 (metadataLabelsOf entry) (initialSupport entry)).SupportedArchs
      = [] := by
    rw [List.eq_nil_iff_forall_not_mem]
    intro s hs
    obtain ⟨f, hf, _⟩ := (built_mem orders entry s).1 hs
    exact hnone f hf
  rw [extract_eq, hnil]
  rfl

/-- Witness for C4: the bundle of the repository test whose only property is of
type "olm.package". -/
theorem extractArchitectureSupport_absent_witness :
    ((∀ p ∈ packageOnlyEntry.Properties, p.Typ ≠ "olm.csv.metadata") ∨
       (∀ p ∈ packageOnlyEntry.Properties, ∀ labels, metadataLabels p = some labels →
          ∀ f : ArchField, mapIndex labels f.label = none)) ∧
    extractArchitectureSupport (fun _ => arm64First) packageOnlyEntry = none :=
  ⟨Or.inl (by decide),
   extractArchitectureSupport_absent (fun _ => arm64First) packageOnlyEntry
     (Or.inl (by decide))⟩

/-- C5. When extractArchLabels runs on an empty ArchitectureSupport record and the
labels hold, for a recognized architecture label, a string v other than "supported",
then afterwards the status field of that architecture is v verbatim and the
architecture is not in SupportedArchs. -/
theorem extractArchLabels_other_value (order : RangeOrder) (labels : JMap) (f : ArchField)
    (v : String) (hv : mapIndex labels f.label = some (.string v)) (hne : v ≠ "supported") :
    f.get (extractArchLabels order labels ArchitectureSupport.zero) = v ∧
    f.name ∉ (extractArchLabels order labels ArchitectureSupport.zero).SupportedArchs := by
  have hs := labelString_of_mapIndex labels _ v hv
  constructor
  · rw [extractArchLabels_get, hs]
    rfl
  · rw [extractArchLabels_SupportedArchs, List.mem_append, mem_appendedNames]
    rintro (h | ⟨g, hg, hn⟩)
    · exact absurd h (by simp [ArchitectureSupport.zero])
    · rw [← name_injective f g hn, hs] at hg
      exact hne (Option.some.inj hg)

/-- Witness for C5: the arm64 label valued "unsupported" next to a supported amd64. -/
theorem extractArchLabels_other_value_witness :
    mapIndex mixedLabels ArchField.ARM64.label = some (.string "unsupported") ∧
    ("unsupported" : String) ≠ "supported" ∧
    ArchField.ARM64.get (extractArchLabels arm64First mixedLabels ArchitectureSupport.zero)
      = "unsupported" ∧
    ArchField.ARM64.name ∉
      (extractArchLabels arm64First mixedLabels ArchitectureSupport.zero).SupportedArchs :=
  ⟨rfl, by decide,
   extractArchLabels_other_value arm64First mixedLabels .ARM64 "unsupported" rfl (by decide)⟩

/-! ## Lemmas on the decoder loop -/

theorem parseLoop_stuck {σ : Type} (decode : σ → Except GoError OperatorIndexEntry × σ)
    (orders : Nat → Nat → RangeOrder) (dec : σ) (err : GoError)
    (hdec : decode dec = (.error err, dec)) (hne : err ≠ GoError.EOF)
    (hno : stringsContains err.Error "EOF" = false) (fuel : Nat) (st : LoopState) :
    parseLoop decode orders fuel dec st = none := by
  induction fuel generalizing st with
  | zero => rfl
  | succ n ih =>
    unfold parseLoop
    rw [hdec]
    simp only [hne, if_false, hno]
    exact ih _

theorem parseLoop_malformed (orders : Nat → Nat → RangeOrder) (msg : String)
    (rest : List StreamItem) (hno : stringsContains msg "EOF" = false) (fuel : Nat)
    (st : LoopState) :
    parseLoop Decoder.Decode orders fuel { input := .malformed msg :: rest, err := none } st
      = none := by
  cases fuel with
  | zero => rfl
  | succ n =>
    unfold parseLoop
    have hne : GoError.other msg ≠ GoError.EOF := by intro h; cases h
    have hno2 : stringsContains (GoError.other msg).Error "EOF" = false := hno
    simp only [Decoder.Decode, hne, if_false, hno2]
    exact parseLoop_stuck Decoder.Decode orders
      { input := .malformed msg :: rest, err := some (.other msg) } (.other msg) rfl hne hno _ _

theorem parseLoop_value (orders : Nat → Nat → RangeOrder) (entry : OperatorIndexEntry)
    (rest : List StreamItem) (fuel : Nat) (st : LoopState) :
    parseLoop Decoder.Decode orders (fuel + 1) { input := .value entry :: rest, err := none } st
      = parseLoop Decoder.Decode orders fuel { input := rest, err := none }
          (countEntry orders st entry) := by
  rw [parseLoop]
  simp only [Decoder.Decode, countEntry, bundleRecords, List.enumFrom, List.filterMap_cons,
    List.filterMap_nil]
  by_cases hs : entry.Schema = "olm.bundle"
  · simp only [hs, ne_eq, not_true_eq_false, if_false, if_true]
    cases extractArchitectureSupport (orders (st.entryCount + 1)) entry <;> simp
  · simp [hs]

theorem parseLoop_end (orders : Nat → Nat → RangeOrder) (fuel : Nat) (st : LoopState) :
    parseLoop Decoder.Decode orders (fuel + 1) { input := [], err := none } st = some st := by
  rw [parseLoop]
  simp [Decoder.Decode]

theorem bundleRecords_cons (orders : Nat → Nat → RangeOrder) (n : Nat) (e : OperatorIndexEntry)
    (es : List OperatorIndexEntry) :
    bundleRecords orders n (e :: es) = bundleRecords orders n [e] ++
      bundleRecords orders (n + 1) es := by
  unfold bundleRecords
  simp only [List.enumFrom, List.filterMap_cons, List.filterMap_nil]
  split <;> simp

theorem parseLoop_values (orders : Nat → Nat → RangeOrder) (entries : List OperatorIndexEntry)
    (fuel : Nat) (st : LoopState) (hfuel : entries.length < fuel) :
    parseLoop Decoder.Decode orders fuel { input := entries.map .value, err := none } st
      = some { results := st.results ++ bundleRecords orders (st.entryCount + 1) entries
               entryCount := st.entryCount + entries.length
               stdout := st.stdout } := by
  induction entries generalizing fuel st with
  | nil =>
    obtain ⟨n, rfl⟩ : ∃ n, fuel = n + 1 := ⟨fuel - 1, by simp at hfuel; omega⟩
    rw [List.map_nil, parseLoop_end]
    simp [bundleRecords]
  | cons e es ih =>
    obtain ⟨n, rfl⟩ : ∃ n, fuel = n + 1 := ⟨fuel - 1, by simp at hfuel; omega⟩
    rw [List.map_cons, parseLoop_value, ih n _ (by simp at hfuel; omega), bundleRecords_cons]
    simp only [countEntry, List.append_assoc, List.length_cons]
    congr 2
    omega

/-- C3, at the failing input. The stream holds a well-formed bundle, then bytes that
are not JSON, then another well-formed bundle. The decoder keeps answering the syntax
error it stored, the loop continues on it, and ParseOperatorIndex returns nothing
whatever the number of turns it is given; the claim asks for two records, which is
what the same stream without the malformed value yields. -/
theorem ParseOperatorIndex_spins_on_malformed (orders : Nat → Nat → RangeOrder) (fuel : Nat) :
    ParseOperatorIndex (singleFile "index.json" brokenStream) orders fuel "index.json" = none ∧
    ParseOperatorIndex (singleFile "index.json" repairedStream)
      (fun _ _ => RangeOrder.literal) 3 "index.json" =
        some { results := [scenarioRecord, secondRecord], err := none,
               stdout := ["Processed 2 entries\n"] } := by
  refine ⟨?_, by decide⟩
  have hopen : singleFile "index.json" brokenStream "index.json" = .ok brokenStream := by
    simp [singleFile]
  unfold ParseOperatorIndex
  rw [hopen]
  have hloop : parseLoop Decoder.Decode orders fuel (NewDecoder brokenStream) LoopState.initial
      = none := by
    cases fuel with
    | zero => rfl
    | succ n =>
      show parseLoop Decoder.Decode orders (n + 1)
        { input := .value scenarioEntry ::
            [.malformed syntaxErrorText, .value secondBundle], err := none } _ = none
      rw [parseLoop_value]
      exact parseLoop_malformed orders _ _ (by decide) _ _
  simp only [hloop]

/-- C6. When the file holds well-formed values only, ParseOperatorIndex returns, in
stream order, the non-absent results of extractArchitectureSupport on exactly the
entries whose Schema is "olm.bundle": an entry of another schema is not passed to
the extractor and adds no record. -/
theorem ParseOperatorIndex_collects_bundles (osOpen : String → Except GoError (List StreamItem))
    (orders : Nat → Nat → RangeOrder) (fuel : Nat) (filePath : String)
    (entries : List OperatorIndexEntry) (hopen : osOpen filePath = .ok (entries.map .value))
    (hfuel : entries.length < fuel) :
    ParseOperatorIndex osOpen orders fuel filePath =
      some { results :=
               (entries.enumFrom 1).filterMap
                 (fun ne =>
                   if ne.2.Schema = "olm.bundle" then
                     extractArchitectureSupport (orders ne.1) ne.2
                   else none)
             err := none
             stdout := ["Processed " ++ toString entries.length ++ " entries\n"] } := by
  unfold ParseOperatorIndex
  rw [hopen]
  simp only [NewDecoder]
  rw [parseLoop_values orders entries fuel LoopState.initial hfuel]
  simp [LoopState.initial, bundleRecords]

/-- Witness for C6: two bundles with a package entry and a bundle without labels
between them. -/
theorem ParseOperatorIndex_collects_bundles_witness :
    singleFile "index.json" (mixedEntries.map .value) "index.json"
      = .ok (mixedEntries.map .value) ∧
    mixedEntries.length < 5 ∧
    ParseOperatorIndex (singleFile "index.json" (mixedEntries.map .value))
      (fun _ _ => RangeOrder.literal) 5 "index.json" =
      some { results :=
               (mixedEntries.enumFrom 1).filterMap
                 (fun ne =>
                   if ne.2.Schema = "olm.bundle" then
                     extractArchitectureSupport (fun _ => RangeOrder.literal) ne.2
                   else none)
             err := none
             stdout := ["Processed " ++ toString mixedEntries.length ++ " entries\n"] } :=
  ⟨rfl, by decide,
   ParseOperatorIndex_collects_bundles _ (fun _ _ => RangeOrder.literal) 5 "index.json"
     mixedEntries rfl (by decide)⟩

/-- C10. When the file cannot be opened, ParseOperatorIndex returns at once, for any
number of loop turns allowed and with nothing printed: no results, and an error that
wraps the cause behind the text "failed to open file: ". -/
theorem ParseOperatorIndex_open_failure (osOpen : String → Except GoError (List StreamItem))
    (orders : Nat → Nat → RangeOrder) (fuel : Nat) (filePath : String) (cause : GoError)
    (hopen : osOpen filePath = .error cause) :
    ∃ err, ParseOperatorIndex osOpen orders fuel filePath =
        some { results := [], err := some err, stdout := [] } ∧
      err.Unwrap = some cause ∧
      err.Error = "failed to open file: " ++ cause.Error := by
  refine ⟨.wrap ("failed to open file: " ++ cause.Error) cause, ?_, rfl, rfl⟩
  unfold ParseOperatorIndex
  rw [hopen]

/-- Witness for C10: the file name of the repository test on a file system that
holds another file. -/
theorem ParseOperatorIndex_open_failure_witness :
    singleFile "index.json" brokenStream "nonexistent-file.json" =
      .error (.other "open nonexistent-file.json: no such file or directory") ∧
    ∃ err, ParseOperatorIndex (singleFile "index.json" brokenStream)
        (fun _ _ => RangeOrder.literal) 0 "nonexistent-file.json" =
        some { results := [], err := some err, stdout := [] } ∧
      err.Unwrap = some (.other "open nonexistent-file.json: no such file or directory") ∧
      err.Error = "failed to open file: " ++
        (GoError.other "open nonexistent-file.json: no such file or directory").Error :=
  ⟨rfl,
   ParseOperatorIndex_open_failure _ (fun _ _ => RangeOrder.literal) 0 "nonexistent-file.json"
     (.other "open nonexistent-file.json: no such file or directory") rfl⟩

theorem perm_pair_cases {α : Type} (l : List α) (a b : α) (h : l.Perm [a, b]) :
    l = [a, b] ∨ l = [b, a] := by
  have hm := List.mem_permutations'.2 h
  simpa [List.permutations', List.permutations'Aux] using hm

theorem scenario_built (orders : Nat → RangeOrder) :
    applyLabels orders 0 (metadataLabelsOf scenarioEntry) (initialSupport scenarioEntry) =
      extractArchLabels (orders 0) scenarioLabels (initialSupport scenarioEntry) :=
  built_single orders scenarioEntry _ rfl

/-- C7, as amended. Every record extractArchitectureSupport returns has OperatorName
and BundleName equal to the entry's Name, Package equal to the entry's Package and
Image equal to the entry's Image. For the scenario record (foo.v1 of package foo,
amd64 and arm64 labeled "supported") a record is returned with AMD64 = ARM64 =
"supported", PPC64LE = S390X = "", and SupportedArchs holding "amd64" and "arm64"
once each: as ["amd64", "arm64"] when the range over archMap visits the keys in the
enumeration order, and otherwise possibly as ["arm64", "amd64"]. -/
theorem extractArchitectureSupport_copies_identity (orders : Nat → RangeOrder) :
    (∀ (entry : OperatorIndexEntry) (r : ArchitectureSupport),
      extractArchitectureSupport orders entry = some r →
      r.OperatorName = entry.Name ∧ r.BundleName = entry.Name ∧
      r.Package = entry.Package ∧ r.Image = entry.Image) ∧
    (∃ r, extractArchitectureSupport orders scenarioEntry = some r ∧
      r.OperatorName = "foo.v1" ∧ r.BundleName = "foo.v1" ∧ r.Package = "foo" ∧
      r.AMD64 = "supported" ∧ r.ARM64 = "supported" ∧ r.PPC64LE = "" ∧ r.S390X = "" ∧
      (r.SupportedArchs = ["amd64", "arm64"] ∨ r.SupportedArchs = ["arm64", "amd64"]) ∧
      ((orders 0).visits = archMap → r.SupportedArchs = ["amd64", "arm64"])) := by
  constructor
  · intro entry r h
    rw [extract_some orders entry r h]
    exact applyLabels_names orders _ 0 _
  · have hsup : (applyLabels orders 0 (metadataLabelsOf scenarioEntry)
        (initialSupport scenarioEntry)).SupportedArchs =
          appendedNames scenarioLabels (orders 0).visits := by
      rw [scenario_built, extractArchLabels_SupportedArchs]
      rfl
    have hperm := appendedNames_perm (orders 0) scenarioLabels
    have hlit : appendedNames scenarioLabels archMap = ["amd64", "arm64"] := by decide
    rw [hlit] at hperm
    have hget : ∀ f : ArchField,
        f.get (applyLabels orders 0 (metadataLabelsOf scenarioEntry)
          (initialSupport scenarioEntry)) =
          (labelString scenarioLabels f.label).getD "" := by
      intro f
      rw [scenario_built, extractArchLabels_get, initialSupport_get]
    obtain ⟨n1, n2, n3, _⟩ := applyLabels_names orders (metadataLabelsOf scenarioEntry) 0
      (initialSupport scenarioEntry)
    refine ⟨_, ?_, n1, n2, n3, hget .AMD64, hget .ARM64, hget .PPC64LE, hget .S390X, ?_, ?_⟩
    · rw [extract_eq, if_pos]
      rw [hsup, hperm.length_eq]
      decide
    · rw [hsup]
      exact perm_pair_cases _ _ _ hperm
    · intro hv
      rw [hsup, hv, hlit]

/-- Witness for C7, as amended: the scenario record under a range that visits the
arm64 key first. -/
theorem extractArchitectureSupport_copies_identity_witness :
    extractArchitectureSupport (fun _ => arm64First) scenarioEntry =
      some { scenarioRecord with SupportedArchs := ["arm64", "amd64"] } ∧
    ({ scenarioRecord with SupportedArchs := ["arm64", "amd64"] }.OperatorName
        = scenarioEntry.Name ∧
      { scenarioRecord with SupportedArchs := ["arm64", "amd64"] }.BundleName
        = scenarioEntry.Name ∧
      { scenarioRecord with SupportedArchs := ["arm64", "amd64"] }.Package
        = scenarioEntry.Package ∧
      { scenarioRecord with SupportedArchs := ["arm64", "amd64"] }.Image
        = scenarioEntry.Image) :=
  ⟨by decide,
   (extractArchitectureSupport_copies_identity (fun _ => arm64First)).1 scenarioEntry _
     (by decide)⟩

/-- Counterexample to C7 as stated: under a range that visits the arm64 key first,
the scenario record yields SupportedArchs = ["arm64", "amd64"], not
["amd64", "arm64"]. -/
theorem scenario_supportedArchs_swapped :
    extractArchitectureSupport (fun _ => arm64First) scenarioEntry =
      some { scenarioRecord with SupportedArchs := ["arm64", "amd64"] } ∧
    extractArchitectureSupport (fun _ => arm64First) scenarioEntry ≠ some scenarioRecord ∧
    scenarioRecord.SupportedArchs = ["amd64", "arm64"] :=
  ⟨by decide, by decide, by decide⟩

theorem mapIndex_mapDelete (m : JMap) (key k : String) :
    mapIndex (mapDelete m key) k = if k = key then none else mapIndex m k := by
  induction m with
  | nil => simp [mapDelete, mapIndex]
  | cons kv rest ih =>
    obtain ⟨k1, v1⟩ := kv
    unfold mapDelete
    by_cases h1 : k1 = key
    · rw [if_pos h1, ih]
      by_cases h2 : k = key
      · simp [h2]
      · have h3 : ¬ k1 = k := fun h => h2 (h ▸ h1)
        simp [h2, mapIndex, h3]
    · rw [if_neg h1]
      by_cases h2 : k = key
      · subst h2
        simp only [mapIndex, h1, if_false, ih, if_true]
      · by_cases h3 : k1 = k
        · simp [mapIndex, h3, h2]
        · simp [mapIndex, h3, h2, ih]

theorem labelString_mapDelete (labels : JMap) (key : String)
    (h : (∀ f : ArchField, f.label ≠ key) ∨ (∀ v, mapIndex labels key ≠ some (.string v)))
    (f : ArchField) :
    labelString (mapDelete labels key) f.label = labelString labels f.label := by
  by_cases hk : f.label = key
  · rcases h with h | h
    · exact absurd hk (h f)
    · have h1 : labelString labels f.label = none := by
        unfold labelString
        rw [hk]
        split
        · rename_i s hs
          exact absurd hs (h s)
        · rfl
      have h2 : labelString (mapDelete labels key) f.label = none := by
        unfold labelString
        rw [mapIndex_mapDelete, if_pos hk]
      rw [h1, h2]
  · unfold labelString
    rw [mapIndex_mapDelete, if_neg hk]

theorem extractArchLabels_congr (order : RangeOrder) (l1 l2 : JMap)
    (h : ∀ f : ArchField, labelString l1 f.label = labelString l2 f.label)
    (a : ArchitectureSupport) :
    extractArchLabels order l1 a = extractArchLabels order l2 a := by
  unfold extractArchLabels
  have key : ∀ (l : List (String × ArchField)), (∀ b ∈ l, b = (b.2.label, b.2)) →
      ∀ a, l.foldl (rangeBody l1) a = l.foldl (rangeBody l2) a := by
    intro l
    induction l with
    | nil => intro _ _; rfl
    | cons b l ih =>
      intro hl a
      have hb : b.1 = b.2.label := congrArg Prod.fst (hl b (List.mem_cons_self _ _))
      have hstep : rangeBody l1 a b = rangeBody l2 a b := by
        unfold rangeBody
        rw [hb, h b.2]
      rw [List.foldl_cons, List.foldl_cons, hstep]
      exact ih (fun c hc => hl c (List.mem_cons_of_mem _ hc)) _
  exact key order.visits (fun b hb => (visits_mem_iff order b).1 hb) a

theorem metadataLabels_skipped (p : Property)
    (h : p.Typ ≠ "olm.csv.metadata" ∨ (∀ m, p.Value ≠ .object m) ∨
      (∀ m labels, p.Value = .object m → mapIndex m "labels" ≠ some (.object labels))) :
    metadataLabels p = none := by
  rcases h with h | h | h
  · exact metadataLabels_of_type_ne p h
  · unfold metadataLabels
    split
    · split
      · rename_i m hm
        exact absurd hm (h m)
      · rfl
    · rfl
  · unfold metadataLabels
    split
    · split
      · rename_i m hm
        split
        · rename_i labels hl
          exact absurd hl (h m labels hm)
        · rfl
      · rfl
    · rfl

theorem extract_congr (orders : Nat → RangeOrder) (e1 e2 : OperatorIndexEntry)
    (hb : applyLabels orders 0 (metadataLabelsOf e1) (initialSupport e1) =
      applyLabels orders 0 (metadataLabelsOf e2) (initialSupport e2)) :
    extractArchitectureSupport orders e1 = extractArchitectureSupport orders e2 := by
  rw [extract_eq, extract_eq, hb]

/-- C8. extractArchitectureSupport is a total function with no failure outcome, and
for a record whose properties are pre, then p, then post: when p is not of type
"olm.csv.metadata", or its value is not a mapping, or its "labels" field is missing
or not a mapping, the result is that of the record without p; and when p reaches
extractArchLabels, taking out of its labels a key that is not recognized, or a key
that holds no string, leaves the result unchanged. -/
theorem extractArchitectureSupport_skips (orders : Nat → RangeOrder)
    (entry : OperatorIndexEntry) (pre post : List Property) (p : Property)
    (hprops : entry.Properties = pre ++ p :: post) :
    (∃ out, extractArchitectureSupport orders entry = out) ∧
    ((p.Typ ≠ "olm.csv.metadata" ∨ (∀ m, p.Value ≠ .object m) ∨
        (∀ m labels, p.Value = .object m → mapIndex m "labels" ≠ some (.object labels))) →
      extractArchitectureSupport orders { entry with Properties := pre ++ post } =
        extractArchitectureSupport orders entry) ∧
    (∀ (labels : JMap) (key : String) (q : Property),
      metadataLabels p = some labels → metadataLabels q = some (mapDelete labels key) →
      ((∀ f : ArchField, f.label ≠ key) ∨ (∀ v, mapIndex labels key ≠ some (.string v))) →
      extractArchitectureSupport orders { entry with Properties := pre ++ q :: post } =
        extractArchitectureSupport orders entry) := by
  refine ⟨⟨_, rfl⟩, ?_, ?_⟩
  · intro hskip
    refine extract_congr orders _ _ ?_
    have hnone := metadataLabels_skipped p hskip
    have : metadataLabelsOf { entry with Properties := pre ++ post } = metadataLabelsOf entry := by
      simp [metadataLabelsOf, hprops, List.filterMap_append, List.filterMap_cons, hnone]
    rw [this]
    rfl
  · intro labels key q hp hq hkey
    refine extract_congr orders _ _ ?_
    have h1 : metadataLabelsOf { entry with Properties := pre ++ q :: post } =
        pre.filterMap metadataLabels ++ mapDelete labels key :: post.filterMap metadataLabels := by
      simp [metadataLabelsOf, List.filterMap_append, List.filterMap_cons, hq]
    have h2 : metadataLabelsOf entry =
        pre.filterMap metadataLabels ++ labels :: post.filterMap metadataLabels := by
      simp [metadataLabelsOf, hprops, List.filterMap_append, List.filterMap_cons, hp]
    have hinit : initialSupport { entry with Properties := pre ++ q :: post } =
        initialSupport entry := rfl
    rw [h1, h2, hinit, applyLabels_append, applyLabels_append]
    simp only [applyLabels]
    rw [extractArchLabels_congr _ _ _ (labelString_mapDelete labels key hkey)]

/-- Witness for C8: a record from which a metadata property whose value is a string
is removed, and a record from whose labels a recognized key holding a boolean is
taken out. -/
theorem extractArchitectureSupport_skips_witness :
    (paddedEntry.Properties =
        [packageProperty, metadataProperty scenarioLabels] ++ textProperty :: [] ∧
      extractArchitectureSupport (fun _ => arm64First)
        { paddedEntry with
          Properties := [packageProperty, metadataProperty scenarioLabels] ++ [] } =
        extractArchitectureSupport (fun _ => arm64First) paddedEntry) ∧
    (noisyEntry.Properties = [] ++ metadataProperty noisyLabels :: [] ∧
      extractArchitectureSupport (fun _ => arm64First)
        { noisyEntry with
          Properties :=
            [] ++ metadataProperty
              (mapDelete noisyLabels "operatorframework.io/arch.arm64") :: [] } =
        extractArchitectureSupport (fun _ => arm64First) noisyEntry) :=
  ⟨⟨rfl,
    (extractArchitectureSupport_skips (fun _ => arm64First) paddedEntry
      [packageProperty, metadataProperty scenarioLabels] [] textProperty rfl).2.1
      (Or.inr (Or.inl (fun m hm => by cases hm)))⟩,
   ⟨rfl,
    (extractArchitectureSupport_skips (fun _ => arm64First) noisyEntry [] []
      (metadataProperty noisyLabels) rfl).2.2 noisyLabels "operatorframework.io/arch.arm64"
      (metadataProperty (mapDelete noisyLabels "operatorframework.io/arch.arm64")) rfl rfl
      (Or.inr (fun v hv => by cases hv))⟩⟩

theorem applyLabels_length (orders : Nat → RangeOrder) (ls : List JMap) (k : Nat)
    (a : ArchitectureSupport) :
    (applyLabels orders k ls a).SupportedArchs.length ≤ a.SupportedArchs.length + 4 * ls.length := by
  induction ls generalizing k a with
  | nil => simp [applyLabels]
  | cons x ls ih =>
    have h1 := ih (k + 1) (extractArchLabels (orders k) x a)
    rw [extractArchLabels_SupportedArchs, List.length_append] at h1
    have h2 := appendedNames_length (orders k) x
    simp only [applyLabels, List.length_cons]
    omega

/-- C9, as amended. In every record extractArchitectureSupport returns, each element
of SupportedArchs is one of amd64, arm64, ppc64le, s390x; when at most one property
reaches extractArchLabels no element occurs twice and the list has at most four
elements; with several such properties the list has at most four elements per
property. -/
theorem supportedArchs_within_enumeration (orders : Nat → RangeOrder)
    (entry : OperatorIndexEntry) (r : ArchitectureSupport)
    (h : extractArchitectureSupport orders entry = some r) :
    (∀ s ∈ r.SupportedArchs, s ∈ ["amd64", "arm64", "ppc64le", "s390x"]) ∧
    ((metadataLabelsOf entry).length ≤ 1 →
      r.SupportedArchs.Nodup ∧ r.SupportedArchs.length ≤ 4) ∧
    r.SupportedArchs.length ≤ 4 * (metadataLabelsOf entry).length := by
  have hr := extract_some orders entry r h
  refine ⟨?_, ?_, ?_⟩
  · intro s hs
    rw [hr] at hs
    obtain ⟨f, _, rfl⟩ := (built_mem orders entry s).1 hs
    cases f <;> decide
  · intro hlen
    rw [hr]
    match hm : metadataLabelsOf entry, hlen with
    | [], _ => simp [applyLabels, initialSupport]
    | [labels], _ =>
      simp only [applyLabels]
      rw [extractArchLabels_SupportedArchs]
      have hnil : (initialSupport entry).SupportedArchs = [] := rfl
      rw [hnil, List.nil_append]
      exact ⟨appendedNames_nodup _ _, appendedNames_length _ _⟩
    | _ :: _ :: _, hlen => simp at hlen
  · rw [hr]
    have := applyLabels_length orders (metadataLabelsOf entry) 0 (initialSupport entry)
    have hnil : (initialSupport entry).SupportedArchs.length = 0 := rfl
    omega

/-- Witness for C9, as amended: the scenario record under a range that visits the
arm64 key first. -/
theorem supportedArchs_within_enumeration_witness :
    extractArchitectureSupport (fun _ => arm64First) scenarioEntry =
      some { scenarioRecord with SupportedArchs := ["arm64", "amd64"] } ∧
    (∀ s ∈ ({ scenarioRecord with SupportedArchs := ["arm64", "amd64"] }).SupportedArchs,
      s ∈ ["amd64", "arm64", "ppc64le", "s390x"]) ∧
    ((metadataLabelsOf scenarioEntry).length ≤ 1 →
      ({ scenarioRecord with SupportedArchs := ["arm64", "amd64"] }).SupportedArchs.Nodup ∧
      ({ scenarioRecord with SupportedArchs := ["arm64", "amd64"] }).SupportedArchs.length ≤ 4) ∧
    ({ scenarioRecord with SupportedArchs := ["arm64", "amd64"] }).SupportedArchs.length ≤
      4 * (metadataLabelsOf scenarioEntry).length :=
  ⟨by decide,
   supportedArchs_within_enumeration (fun _ => arm64First) scenarioEntry _ (by decide)⟩

/-- Counterexample to C9 as stated: two metadata properties that both label amd64
"supported" yield SupportedArchs = ["amd64", "amd64"], where "amd64" occurs twice, and
five such properties yield a list of five elements. -/
theorem supportedArchs_repeats_across_properties :
    extractArchitectureSupport (fun _ => RangeOrder.literal) repeatedEntry =
      some repeatedRecord ∧
    repeatedRecord.SupportedArchs = ["amd64", "amd64"] ∧
    ¬ repeatedRecord.SupportedArchs.Nodup ∧
    extractArchitectureSupport (fun _ => RangeOrder.literal) fiveFoldEntry =
      some fiveFoldRecord ∧
    ¬ fiveFoldRecord.SupportedArchs.length ≤ 4 :=
  ⟨by decide, by decide, by decide, by decide, by decide⟩

/-! ## Lemmas and claims on the later stages -/

theorem foldl_append_filter {α : Type} (p : α → Bool) (l acc : List α) :
    l.foldl (fun filtered x => if p x then filtered ++ [x] else filtered) acc
      = acc ++ l.filter p := by
  induction l generalizing acc with
  | nil => simp
  | cons x l ih =>
    rw [List.foldl_cons, ih]
    cases hp : p x <;> simp [List.filter_cons, hp]

theorem applyLabels_get (orders : Nat → RangeOrder) (ls : List JMap) (k : Nat)
    (a : ArchitectureSupport) (f : ArchField) :
    f.get (applyLabels orders k ls a) =
      ((ls.filterMap (fun labels => labelString labels f.label)).getLast?).getD (f.get a) := by
  induction ls generalizing k a with
  | nil => rfl
  | cons x ls ih =>
    simp only [applyLabels]
    rw [ih, extractArchLabels_get, List.filterMap_cons]
    cases hx : labelString x f.label with
    | none => rfl
    | some v =>
      simp only [Option.getD_some]
      rw [List.getLast?_cons]
      cases (List.filterMap (fun labels => labelString labels f.label) ls).getLast? <;> rfl

/-- C11. When the file is empty, so that the first decode attempt reports the end of
the stream, ParseOperatorIndex returns an empty result and a nil error, having
printed that it processed 0 entries. -/
theorem ParseOperatorIndex_empty_file (osOpen : String → Except GoError (List StreamItem))
    (orders : Nat → Nat → RangeOrder) (fuel : Nat) (filePath : String)
    (hopen : osOpen filePath = .ok []) (hfuel : 0 < fuel) :
    ParseOperatorIndex osOpen orders fuel filePath =
      some { results := [], err := none, stdout := ["Processed 0 entries\n"] } ∧
    (Decoder.Decode (NewDecoder [])).1 = .error GoError.EOF := by
  obtain ⟨n, rfl⟩ : ∃ n, fuel = n + 1 := ⟨fuel - 1, by omega⟩
  refine ⟨?_, rfl⟩
  unfold ParseOperatorIndex
  rw [hopen]
  simp only [NewDecoder]
  rw [parseLoop_end]
  rfl

/-- Witness for C11: the empty file of the repository test, with a single turn of
the loop. -/
theorem ParseOperatorIndex_empty_file_witness :
    singleFile "test-index.json" [] "test-index.json" = .ok [] ∧ 0 < 1 ∧
    ParseOperatorIndex (singleFile "test-index.json" []) (fun _ _ => arm64First) 1
        "test-index.json" =
      some { results := [], err := none, stdout := ["Processed 0 entries\n"] } ∧
    (Decoder.Decode (NewDecoder [])).1 = .error GoError.EOF :=
  ⟨rfl, by decide,
   ParseOperatorIndex_empty_file _ (fun _ _ => arm64First) 1 "test-index.json" rfl (by decide)⟩

/-- C13. In the record extractArchitectureSupport builds, whatever the number of
metadata properties and the orders of the ranges, each architecture status field is
the string carried for its label by the last metadata property, in properties order,
whose labels hold a string for that key, and is "" when no metadata property holds
one; the returned record, when there is one, is that record. -/
theorem status_last_write_wins (orders : Nat → RangeOrder) (entry : OperatorIndexEntry)
    (f : ArchField) :
    f.get (visitProperties orders 0 entry.Properties (initialSupport entry)) =
      lastLabelString entry f ∧
    (∀ r, extractArchitectureSupport orders entry = some r → f.get r = lastLabelString entry f) := by
  have hbuilt : f.get (applyLabels orders 0 (metadataLabelsOf entry) (initialSupport entry)) =
      lastLabelString entry f := by
    rw [applyLabels_get, initialSupport_get]
    rfl
  constructor
  · rw [visitProperties_eq]
    exact hbuilt
  · intro r h
    rw [extract_some orders entry r h]
    exact hbuilt

/-- Witness for C13: amd64 labelled "supported", then "unsupported", then not at
all. -/
theorem status_last_write_wins_witness :
    extractArchitectureSupport (fun _ => RangeOrder.literal) threeFoldEntry =
      some threeFoldRecord ∧
    lastLabelString threeFoldEntry .AMD64 = "unsupported" ∧
    ArchField.AMD64.get threeFoldRecord = lastLabelString threeFoldEntry .AMD64 :=
  ⟨by decide, by decide,
   (status_last_write_wins (fun _ => RangeOrder.literal) threeFoldEntry .AMD64).2
     threeFoldRecord (by decide)⟩

theorem isValidArchitectureLoop_iff (lowered : String) (valids : List String) :
    isValidArchitectureLoop lowered valids = true ↔ lowered ∈ valids := by
  induction valids with
  | nil => simp [isValidArchitectureLoop]
  | cons v vs ih =>
    unfold isValidArchitectureLoop
    by_cases h : lowered = v
    · simp [h]
    · simp [h, ih]

theorem validArchitectures_eq : validArchitectures = ArchField.all.map ArchField.name := by
  decide

theorem isValidArchitecture_iff (toLower : String → String) (arch : String) :
    isValidArchitecture toLower arch = true ↔ ∃ f : ArchField, toLower arch = f.name := by
  unfold isValidArchitecture
  rw [isValidArchitectureLoop_iff, validArchitectures_eq, List.mem_map]
  constructor
  · rintro ⟨f, _, hf⟩
    exact ⟨f, hf.symm⟩
  · rintro ⟨f, hf⟩
    exact ⟨f, by cases f <;> decide, hf.symm⟩

theorem archSupported_name (f : ArchField) (result : ArchitectureSupport) :
    archSupported f.name result = decide (f.get result = "supported") := by
  cases f <;> rfl

theorem filterByArchitecture_eq (toLower : String → String) (results : List ArchitectureSupport)
    (arch : String) :
    filterByArchitecture toLower results arch = results.filter (archSupported (toLower arch)) := by
  unfold filterByArchitecture
  simp only
  rw [foldl_append_filter, List.nil_append]

/-- C14. For every architecture string that isValidArchitecture accepts, the switch
of filterByArchitecture reaches the case of one of the four status fields, and the
function returns, in the original order, exactly the elements of the list whose
status field for that architecture equals "supported"; the accepted strings are
those whose lower-cased form is one of amd64, arm64, ppc64le, s390x. -/
theorem filterByArchitecture_valid (toLower : String → String)
    (results : List ArchitectureSupport) (arch : String)
    (hvalid : isValidArchitecture toLower arch = true) :
    toLower arch ∈ ["amd64", "arm64", "ppc64le", "s390x"] ∧
    ∃ f : ArchField, toLower arch = f.name ∧
      filterByArchitecture toLower results arch =
        results.filter (fun result => decide (f.get result = "supported")) := by
  obtain ⟨f, hf⟩ := (isValidArchitecture_iff toLower arch).1 hvalid
  refine ⟨?_, f, hf, ?_⟩
  · rw [hf]
    cases f <;> decide
  · rw [filterByArchitecture_eq, hf]
    congr 1
    funext result
    exact archSupported_name f result

/-- Witness for C14: the upper-case spelling ARM64 on two records. -/
theorem filterByArchitecture_valid_witness :
    isValidArchitecture asciiToLower "ARM64" = true ∧
    asciiToLower "ARM64" ∈ ["amd64", "arm64", "ppc64le", "s390x"] ∧
    ∃ f : ArchField, asciiToLower "ARM64" = f.name ∧
      filterByArchitecture asciiToLower [scenarioRecord, secondRecord] "ARM64" =
        [scenarioRecord, secondRecord].filter
          (fun result => decide (f.get result = "supported")) :=
  ⟨by decide,
   filterByArchitecture_valid asciiToLower [scenarioRecord, secondRecord] "ARM64" (by decide)⟩

theorem containsChars_iff (s substr : List Char) :
    containsChars s substr = true ↔ substr <:+: s := by
  induction s with
  | nil =>
    cases substr <;> simp [containsChars]
  | cons c cs ih =>
    unfold containsChars
    rw [Bool.or_eq_true, ih, List.infix_cons_iff, List.isPrefixOf_iff_prefix]

theorem containsChars_nil (s : List Char) : containsChars s [] = true :=
  (containsChars_iff s []).2 List.nil_infix

/-- C15. For every list of results and every operator name, filterByOperatorName
returns, in the original order, exactly the elements for which the lower-cased
operator name occurs in the lower-cased Package or in the lower-cased BundleName,
where strings.Contains holds exactly when the one character sequence occurs inside
the other; with the empty string as filter every element is kept. -/
theorem filterByOperatorName_matches (toLower : String → String)
    (results : List ArchitectureSupport) (operatorName : String) :
    filterByOperatorName toLower results operatorName =
      results.filter
        (fun result =>
          stringsContains (toLower result.Package) (toLower operatorName) ||
          stringsContains (toLower result.BundleName) (toLower operatorName)) ∧
    (∀ s substr : String, stringsContains s substr = true ↔ substr.data <:+: s.data) ∧
    (toLower "" = "" → filterByOperatorName toLower results "" = results) := by
  have hfilter : ∀ name, filterByOperatorName toLower results name =
      results.filter
        (fun result =>
          stringsContains (toLower result.Package) (toLower name) ||
          stringsContains (toLower result.BundleName) (toLower name)) := by
    intro name
    unfold filterByOperatorName
    simp only
    rw [foldl_append_filter, List.nil_append]
  refine ⟨hfilter operatorName, fun s substr => containsChars_iff _ _, ?_⟩
  intro hempty
  rw [hfilter, hempty]
  simp [stringsContains, containsChars_nil]

/-- Witness for C15: the filter FOO keeps the bundle foo.v1 of two records, and the
empty filter keeps both. -/
theorem filterByOperatorName_matches_witness :
    filterByOperatorName asciiToLower [scenarioRecord, secondRecord] "FOO" = [scenarioRecord] ∧
    asciiToLower "" = "" ∧
    filterByOperatorName asciiToLower [scenarioRecord, secondRecord] "" =
      [scenarioRecord, secondRecord] :=
  ⟨by decide, rfl,
   (filterByOperatorName_matches asciiToLower [scenarioRecord, secondRecord] "").2.2 rfl⟩

theorem extracted_status (orders : Nat → RangeOrder) (entry : OperatorIndexEntry)
    (r : ArchitectureSupport) (h : extractArchitectureSupport orders entry = some r)
    (f : ArchField) :
    (f.get r = "supported" → f.name ∈ r.SupportedArchs) ∧
    ((metadataLabelsOf entry).length ≤ 1 → f.name ∈ r.SupportedArchs → f.get r = "supported") := by
  have hr := extract_some orders entry r h
  constructor
  · rw [hr]
    exact applyLabels_statusListed orders _ 0 _ (initialSupport_statusListed entry) f
  · intro hlen hin
    rw [hr, built_mem] at hin
    obtain ⟨g, hg, hn⟩ := hin
    rw [← name_injective f g hn, labelledSupported_iff] at hg
    obtain ⟨labels, hl, hs⟩ := hg
    have hone : metadataLabelsOf entry = [labels] := by
      match hm : metadataLabelsOf entry, hl, hlen with
      | [x], hl, _ =>
        rw [List.mem_singleton] at hl
        rw [hl]
      | _ :: _ :: _, _, hlen => simp at hlen
    rw [hr, built_single orders entry labels hone, extractArchLabels_get, hs]
    rfl

/-- C18, as amended. For every record that extractArchitectureSupport produces and
every architecture string that isValidArchitecture accepts: when filterByArchitecture
keeps the record, the lower-cased architecture is listed in its SupportedArchs; and
when at most one property of the bundle reached extractArchLabels, the filter keeps
the record if and only if the lower-cased architecture is listed in SupportedArchs. -/
theorem filterByArchitecture_agrees_with_list (toLower : String → String)
    (orders : Nat → RangeOrder) (entry : OperatorIndexEntry) (r : ArchitectureSupport)
    (results : List ArchitectureSupport) (arch : String)
    (h : extractArchitectureSupport orders entry = some r)
    (hvalid : isValidArchitecture toLower arch = true) (hr : r ∈ results) :
    (r ∈ filterByArchitecture toLower results arch → toLower arch ∈ r.SupportedArchs) ∧
    ((metadataLabelsOf entry).length ≤ 1 →
      (r ∈ filterByArchitecture toLower results arch ↔ toLower arch ∈ r.SupportedArchs)) := by
  obtain ⟨f, hf⟩ := (isValidArchitecture_iff toLower arch).1 hvalid
  have hkeep : r ∈ filterByArchitecture toLower results arch ↔ f.get r = "supported" := by
    rw [filterByArchitecture_eq, hf, List.mem_filter, archSupported_name]
    simp [hr]
  obtain ⟨h1, h2⟩ := extracted_status orders entry r h f
  rw [hkeep, hf]
  exact ⟨h1, fun hlen => ⟨h1, h2 hlen⟩⟩

/-- Witness for C18, as amended: the scenario record and the spelling AMD64. -/
theorem filterByArchitecture_agrees_with_list_witness :
    extractArchitectureSupport (fun _ => arm64First) scenarioEntry = some arm64FirstRecord ∧
    isValidArchitecture asciiToLower "AMD64" = true ∧
    arm64FirstRecord ∈ [secondRecord, arm64FirstRecord] ∧
    (arm64FirstRecord ∈
        filterByArchitecture asciiToLower [secondRecord, arm64FirstRecord] "AMD64" →
      asciiToLower "AMD64" ∈ arm64FirstRecord.SupportedArchs) ∧
    ((metadataLabelsOf scenarioEntry).length ≤ 1 →
      (arm64FirstRecord ∈
          filterByArchitecture asciiToLower [secondRecord, arm64FirstRecord] "AMD64" ↔
        asciiToLower "AMD64" ∈ arm64FirstRecord.SupportedArchs)) :=
  ⟨by decide, by decide, by decide,
   filterByArchitecture_agrees_with_list asciiToLower (fun _ => arm64First) scenarioEntry
     arm64FirstRecord [secondRecord, arm64FirstRecord] "AMD64" (by decide) (by decide)
     (by decide)⟩

/-- Counterexample to C18 as stated: the record extracted from a bundle whose first
metadata property labels amd64 "supported" and whose second labels it "unsupported"
lists "amd64" in SupportedArchs, and filterByArchitecture drops it for amd64. -/
theorem filterByArchitecture_drops_listed_record :
    extractArchitectureSupport (fun _ => RangeOrder.literal) overwrittenEntry =
      some overwrittenRecord ∧
    isValidArchitecture asciiToLower "amd64" = true ∧
    "amd64" ∈ overwrittenRecord.SupportedArchs ∧
    filterByArchitecture asciiToLower [overwrittenRecord] "amd64" = [] :=
  ⟨by decide, by decide, by decide, by decide⟩

theorem parseLoop_error {σ : Type} (decode : σ → Except GoError OperatorIndexEntry × σ)
    (orders : Nat → Nat → RangeOrder) (dec dec1 : σ) (err : GoError) (fuel : Nat)
    (st : LoopState) (hdec : decode dec = (.error err, dec1)) :
    parseLoop decode orders (fuel + 1) dec st =
      if err = GoError.EOF ∨ stringsContains err.Error "EOF" = true then some st
      else
        parseLoop decode orders fuel dec1
          { st with stdout := st.stdout ++
              ["Warning: Failed to parse entry " ++ toString (st.entryCount + 1) ++ ": "
                ++ err.Error ++ "\n"] } := by
  rw [parseLoop, hdec]
  by_cases h1 : err = GoError.EOF
  · simp [h1]
  · by_cases h2 : stringsContains err.Error "EOF" = true
    · simp [h1, h2]
    · simp [h1, h2]

theorem parseLoop_readFailure (orders : Nat → Nat → RangeOrder) (err : GoError)
    (rest : List StreamItem) (hne : err ≠ GoError.EOF)
    (hno : stringsContains err.Error "EOF" = false) (fuel : Nat) (st : LoopState) :
    parseLoop Decoder.Decode orders fuel { input := .readFailure err :: rest, err := none } st
      = none := by
  cases fuel with
  | zero => rfl
  | succ n =>
    rw [parseLoop_error Decoder.Decode orders
      { input := .readFailure err :: rest, err := none }
      { input := .readFailure err :: rest, err := some err } err n st rfl]
    rw [if_neg (by simp [hne, hno])]
    exact parseLoop_stuck Decoder.Decode orders
      { input := .readFailure err :: rest, err := some err } err rfl hne hno _ _

/-- C12, at the failing inputs. The path names a directory: the file opens and
every read fails. The decode attempt answers the read error, the loop prints its
warning and continues, the decoder keeps answering the stored error, and
ParseOperatorIndex returns nothing, whatever the number of turns it is given; the
same happens when the read fails with an input/output error after a well-formed
bundle. When the text of the read error contains "EOF", as for a directory named
EOFdir, the loop breaks instead and an empty result is returned with a nil error.
The claim asks for an immediate return with a non-nil error. -/
theorem ParseOperatorIndex_spins_on_read_failure (orders : Nat → Nat → RangeOrder)
    (fuel : Nat) :
    (Decoder.Decode (NewDecoder (directoryStream "catalog"))).1
      = .error (.other "read catalog: is a directory") ∧
    ParseOperatorIndex (singleFile "catalog" (directoryStream "catalog")) orders fuel "catalog"
      = none ∧
    ParseOperatorIndex (singleFile "index.json" failingReadStream) orders fuel "index.json"
      = none ∧
    ParseOperatorIndex (singleFile "EOFdir" (directoryStream "EOFdir")) orders (fuel + 1) "EOFdir"
      = some { results := [], err := none, stdout := ["Processed 0 entries\n"] } := by
  refine ⟨rfl, ?_, ?_, ?_⟩
  · have hopen : singleFile "catalog" (directoryStream "catalog") "catalog"
        = .ok (directoryStream "catalog") := rfl
    have hloop : parseLoop Decoder.Decode orders fuel (NewDecoder (directoryStream "catalog"))
        LoopState.initial = none :=
      parseLoop_readFailure orders (.other "read catalog: is a directory") [] (by decide)
        (by decide) fuel LoopState.initial
    unfold ParseOperatorIndex
    rw [hopen]
    simp only [hloop]
  · have hopen : singleFile "index.json" failingReadStream "index.json" = .ok failingReadStream :=
      rfl
    have hloop : parseLoop Decoder.Decode orders fuel (NewDecoder failingReadStream)
        LoopState.initial = none := by
      cases fuel with
      | zero => rfl
      | succ n =>
        show parseLoop Decoder.Decode orders (n + 1)
          { input := .value scenarioEntry :: [.readFailure (.other readErrorText)],
            err := none } _ = none
        rw [parseLoop_value]
        exact parseLoop_readFailure _ _ _ (by decide) (by decide) _ _
    unfold ParseOperatorIndex
    rw [hopen]
    simp only [hloop]
  · have hopen : singleFile "EOFdir" (directoryStream "EOFdir") "EOFdir"
        = .ok (directoryStream "EOFdir") := rfl
    have hloop : parseLoop Decoder.Decode orders (fuel + 1)
        (NewDecoder (directoryStream "EOFdir")) LoopState.initial = some LoopState.initial := by
      rw [parseLoop_error Decoder.Decode orders (NewDecoder (directoryStream "EOFdir"))
        { input := directoryStream "EOFdir",
          err := some (.other "read EOFdir: is a directory") }
        (.other "read EOFdir: is a directory") fuel LoopState.initial rfl]
      rw [if_pos (Or.inr (by decide))]
    unfold ParseOperatorIndex
    rw [hopen]
    simp only [hloop]
    rfl

theorem decodedValues_cons_value (entry : OperatorIndexEntry) (items : List StreamItem) :
    decodedValues (.value entry :: items) = decodedValues items + 1 := by
  simp [decodedValues, StreamItem.isValue]

theorem decodedValues_cons_mismatch (msg : String) (items : List StreamItem) :
    decodedValues (.mismatch msg :: items) = decodedValues items := by
  simp [decodedValues, StreamItem.isValue]

theorem parseLoop_mismatch (orders : Nat → Nat → RangeOrder) (msg : String)
    (rest : List StreamItem) (fuel : Nat) (st : LoopState) :
    parseLoop Decoder.Decode orders (fuel + 1) { input := .mismatch msg :: rest, err := none } st
      = if stringsContains msg "EOF" = true then some st
        else
          parseLoop Decoder.Decode orders fuel { input := rest, err := none }
            { st with stdout := st.stdout ++
                ["Warning: Failed to parse entry " ++ toString (st.entryCount + 1) ++ ": "
                  ++ msg ++ "\n"] } := by
  rw [parseLoop_error Decoder.Decode orders { input := .mismatch msg :: rest, err := none }
    { input := rest, err := none } (.other msg) fuel st rfl]
  simp [GoError.Error]

theorem parseLoop_ok {σ : Type} (decode : σ → Except GoError OperatorIndexEntry × σ)
    (orders : Nat → Nat → RangeOrder) (dec dec1 : σ) (entry : OperatorIndexEntry) (fuel : Nat)
    (st : LoopState) (hdec : decode dec = (.ok entry, dec1)) :
    ∃ st1, st1.entryCount = st.entryCount + 1 ∧
      parseLoop decode orders (fuel + 1) dec st = parseLoop decode orders fuel dec1 st1 := by
  rw [parseLoop, hdec]
  by_cases hs : entry.Schema = "olm.bundle"
  · simp only [hs, ne_eq, not_true_eq_false, if_false]
    cases extractArchitectureSupport (orders (st.entryCount + 1)) entry with
    | none => exact ⟨_, rfl, rfl⟩
    | some archSupport => exact ⟨_, rfl, rfl⟩
  · simp only [ne_eq, hs, not_false_eq_true, if_true]
    exact ⟨_, rfl, rfl⟩

theorem parseLoop_answers {σ : Type} (decode : σ → Except GoError OperatorIndexEntry × σ)
    (orders : Nat → Nat → RangeOrder) :
    ∀ (fuel : Nat) (dec : σ) (st0 st : LoopState),
      parseLoop decode orders fuel dec st0 = some st →
      ∃ k last, k < fuel ∧
        decodeAnswers decode (k + 1) dec = decodeAnswers decode k dec ++ [last] ∧
        answerEndsLoop last = true ∧
        (∀ a ∈ decodeAnswers decode k dec, answerEndsLoop a = false) ∧
        st.entryCount =
          st0.entryCount + ((decodeAnswers decode k dec).filter answerDecoded).length := by
  intro fuel
  induction fuel with
  | zero =>
    intro dec st0 st h
    exact absurd h (by simp [parseLoop])
  | succ n ih =>
    intro dec st0 st h
    cases hd : decode dec with
    | mk ans dec1 =>
      cases ans with
      | error err =>
        rw [parseLoop_error decode orders dec dec1 err n st0 hd] at h
        by_cases hc : err = GoError.EOF ∨ stringsContains err.Error "EOF" = true
        · rw [if_pos hc] at h
          cases h
          refine ⟨0, .error err, Nat.succ_pos n, ?_, ?_, ?_, ?_⟩
          · simp [decodeAnswers, hd]
          · simpa [answerEndsLoop, endsLoop] using hc
          · simp [decodeAnswers]
          · simp [decodeAnswers]
        · rw [if_neg hc] at h
          obtain ⟨k, last, hk, hlast, hend, hall, hcount⟩ := ih dec1 _ st h
          refine ⟨k + 1, last, Nat.succ_lt_succ hk, ?_, hend, ?_, ?_⟩
          · have h1 : decodeAnswers decode (k + 1 + 1) dec =
                .error err :: decodeAnswers decode (k + 1) dec1 := by
              rw [decodeAnswers, hd]
            have h2 : decodeAnswers decode (k + 1) dec =
                .error err :: decodeAnswers decode k dec1 := by
              rw [decodeAnswers, hd]
            rw [h1, h2, hlast]
            rfl
          · have h2 : decodeAnswers decode (k + 1) dec =
                .error err :: decodeAnswers decode k dec1 := by
              rw [decodeAnswers, hd]
            intro a ha
            rw [h2] at ha
            rcases List.mem_cons.1 ha with ha | ha
            · rw [ha]
              simpa [answerEndsLoop, endsLoop] using hc
            · exact hall a ha
          · have h2 : decodeAnswers decode (k + 1) dec =
                .error err :: decodeAnswers decode k dec1 := by
              rw [decodeAnswers, hd]
            rw [h2, hcount]
            simp [answerDecoded]
      | ok entry =>
        obtain ⟨st1, hst1, hstep⟩ := parseLoop_ok decode orders dec dec1 entry n st0 hd
        rw [hstep] at h
        obtain ⟨k, last, hk, hlast, hend, hall, hcount⟩ := ih dec1 st1 st h
        have h2 : decodeAnswers decode (k + 1) dec =
            .ok entry :: decodeAnswers decode k dec1 := by
          rw [decodeAnswers, hd]
        refine ⟨k + 1, last, Nat.succ_lt_succ hk, ?_, hend, ?_, ?_⟩
        · have h1 : decodeAnswers decode (k + 1 + 1) dec =
              .ok entry :: decodeAnswers decode (k + 1) dec1 := by
            rw [decodeAnswers, hd]
          rw [h1, h2, hlast]
          rfl
        · intro a ha
          rw [h2] at ha
          rcases List.mem_cons.1 ha with ha | ha
          · rw [ha]
            rfl
          · exact hall a ha
        · rw [h2, hcount, hst1]
          simp [answerDecoded]
          omega

theorem itemsPassed_cons (item : StreamItem) (items : List StreamItem) :
    itemsPassed (item :: items) =
      if item.passable = true then item :: itemsPassed items else [] := by
  unfold itemsPassed
  rw [List.takeWhile_cons]

theorem leavesLoop_cons (item : StreamItem) (items : List StreamItem) :
    leavesLoop (item :: items) =
      if item.passable = true then leavesLoop items else item.ending := by
  unfold leavesLoop
  rw [List.dropWhile_cons]
  cases item.passable <;> rfl

theorem parseLoop_exact (orders : Nat → Nat → RangeOrder) (file : List StreamItem) :
    ∀ (fuel : Nat) (st0 st : LoopState),
      parseLoop Decoder.Decode orders fuel { input := file, err := none } st0 = some st →
      leavesLoop file = true ∧
        st.entryCount = st0.entryCount + decodedValues (itemsPassed file) := by
  induction file with
  | nil =>
    intro fuel st0 st h
    cases fuel with
    | zero => exact absurd h (by simp [parseLoop])
    | succ n =>
      rw [parseLoop_end] at h
      cases h
      exact ⟨rfl, by simp [itemsPassed, decodedValues]⟩
  | cons item items ih =>
    intro fuel st0 st h
    cases fuel with
    | zero => exact absurd h (by simp [parseLoop])
    | succ n =>
      rw [itemsPassed_cons, leavesLoop_cons]
      cases item with
      | value entry =>
        rw [parseLoop_value] at h
        obtain ⟨hleave, hcount⟩ := ih n _ st h
        have hp : (StreamItem.value entry).passable = true := rfl
        rw [if_pos hp, if_pos hp, decodedValues_cons_value, hcount]
        refine ⟨hleave, ?_⟩
        simp only [countEntry]
        omega
      | mismatch msg =>
        rw [parseLoop_mismatch] at h
        by_cases hc : stringsContains msg "EOF" = true
        · have hp : ¬ (StreamItem.mismatch msg).passable = true := by
            simp [StreamItem.passable, hc]
          rw [if_pos hc] at h
          cases h
          rw [if_neg hp, if_neg hp]
          exact ⟨hc, by simp [decodedValues]⟩
        · have hp : (StreamItem.mismatch msg).passable = true := by
            simpa [StreamItem.passable] using hc
          rw [if_neg hc] at h
          obtain ⟨hleave, hcount⟩ := ih n _ st h
          rw [if_pos hp, if_pos hp, decodedValues_cons_mismatch, hcount]
          exact ⟨hleave, rfl⟩
      | malformed msg =>
        have hp : ¬ (StreamItem.malformed msg).passable = true := by
          simp [StreamItem.passable]
        rw [if_neg hp, if_neg hp]
        by_cases hc : stringsContains msg "EOF" = true
        · rw [parseLoop_error Decoder.Decode orders
            { input := .malformed msg :: items, err := none }
            { input := .malformed msg :: items, err := some (.other msg) } (.other msg) n st0
            rfl] at h
          have hc1 : GoError.other msg = GoError.EOF ∨
              stringsContains (GoError.other msg).Error "EOF" = true := Or.inr hc
          rw [if_pos hc1] at h
          cases h
          exact ⟨hc, by simp [decodedValues]⟩
        · rw [parseLoop_malformed orders msg items (by simpa using hc)] at h
          exact absurd h (by simp)
      | readFailure err =>
        have hp : ¬ (StreamItem.readFailure err).passable = true := by
          simp [StreamItem.passable]
        rw [if_neg hp, if_neg hp]
        by_cases hc : err = GoError.EOF ∨ stringsContains err.Error "EOF" = true
        · rw [parseLoop_error Decoder.Decode orders
            { input := .readFailure err :: items, err := none }
            { input := .readFailure err :: items, err := some err } err n st0 rfl,
            if_pos hc] at h
          cases h
          exact ⟨by simpa [StreamItem.ending, endsLoop] using hc, by simp [decodedValues]⟩
        · rw [not_or] at hc
          rw [parseLoop_readFailure orders err items hc.1 (by simpa using hc.2)] at h
          exact absurd h (by simp)

theorem parseLoop_leaves (orders : Nat → Nat → RangeOrder) (file : List StreamItem) :
    leavesLoop file = true →
    ∀ (fuel : Nat) (st0 : LoopState), (itemsPassed file).length < fuel →
      ∃ st, parseLoop Decoder.Decode orders fuel { input := file, err := none } st0 = some st ∧
        st.entryCount = st0.entryCount + decodedValues (itemsPassed file) := by
  induction file with
  | nil =>
    intro _ fuel st0 hfuel
    obtain ⟨n, rfl⟩ : ∃ n, fuel = n + 1 := ⟨fuel - 1, by omega⟩
    exact ⟨st0, parseLoop_end orders n st0, by simp [itemsPassed, decodedValues]⟩
  | cons item items ih =>
    intro hleave fuel st0 hfuel
    obtain ⟨n, rfl⟩ : ∃ n, fuel = n + 1 := ⟨fuel - 1, by omega⟩
    rw [leavesLoop_cons] at hleave
    rw [itemsPassed_cons] at hfuel ⊢
    cases item with
    | value entry =>
      have hp : (StreamItem.value entry).passable = true := rfl
      rw [if_pos hp] at hleave hfuel ⊢
      obtain ⟨st, hst, hcount⟩ := ih hleave n (countEntry orders st0 entry)
        (by simp at hfuel; omega)
      refine ⟨st, by rw [parseLoop_value]; exact hst, ?_⟩
      rw [hcount, decodedValues_cons_value]
      simp only [countEntry]
      omega
    | mismatch msg =>
      by_cases hc : stringsContains msg "EOF" = true
      · have hp : ¬ (StreamItem.mismatch msg).passable = true := by
          simp [StreamItem.passable, hc]
        rw [if_neg hp]
        exact ⟨st0, by rw [parseLoop_mismatch, if_pos hc], by simp [decodedValues]⟩
      · have hp : (StreamItem.mismatch msg).passable = true := by
          simpa [StreamItem.passable] using hc
        rw [if_pos hp] at hleave hfuel ⊢
        obtain ⟨st, hst, hcount⟩ := ih hleave n
          { st0 with stdout := st0.stdout ++
              ["Warning: Failed to parse entry " ++ toString (st0.entryCount + 1) ++ ": "
                ++ msg ++ "\n"] } (by simp at hfuel; omega)
        refine ⟨st, by rw [parseLoop_mismatch, if_neg hc]; exact hst, ?_⟩
        rw [hcount, decodedValues_cons_mismatch]
    | malformed msg =>
      have hp : ¬ (StreamItem.malformed msg).passable = true := by
        simp [StreamItem.passable]
      rw [if_neg hp] at hleave ⊢
      have hc : GoError.other msg = GoError.EOF ∨
          stringsContains (GoError.other msg).Error "EOF" = true := Or.inr hleave
      refine ⟨st0, ?_, by simp [decodedValues]⟩
      rw [parseLoop_error Decoder.Decode orders
        { input := .malformed msg :: items, err := none }
        { input := .malformed msg :: items, err := some (.other msg) } (.other msg) n st0 rfl,
        if_pos hc]
    | readFailure err =>
      have hp : ¬ (StreamItem.readFailure err).passable = true := by
        simp [StreamItem.passable]
      rw [if_neg hp] at hleave ⊢
      have hc : err = GoError.EOF ∨ stringsContains err.Error "EOF" = true := by
        simpa [StreamItem.ending, endsLoop] using hleave
      refine ⟨st0, ?_, by simp [decodedValues]⟩
      rw [parseLoop_error Decoder.Decode orders
        { input := .readFailure err :: items, err := none }
        { input := .readFailure err :: items, err := some err } err n st0 rfl,
        if_pos hc]

theorem parseLoop_passable (orders : Nat → Nat → RangeOrder) (file : List StreamItem)
    (hp : ∀ item ∈ file, item.passable = true) :
    ∀ (fuel : Nat) (st0 : LoopState), file.length < fuel →
      ∃ st, parseLoop Decoder.Decode orders fuel { input := file, err := none } st0 = some st ∧
        st.entryCount = st0.entryCount + decodedValues file := by
  induction file with
  | nil =>
    intro fuel st0 hfuel
    obtain ⟨n, rfl⟩ : ∃ n, fuel = n + 1 := ⟨fuel - 1, by simp at hfuel; omega⟩
    exact ⟨st0, parseLoop_end orders n st0, by simp [decodedValues]⟩
  | cons item items ih =>
    intro fuel st0 hfuel
    obtain ⟨n, rfl⟩ : ∃ n, fuel = n + 1 := ⟨fuel - 1, by simp at hfuel; omega⟩
    have hn : items.length < n := by simp at hfuel; omega
    have hrest : ∀ x ∈ items, x.passable = true := fun x hx => hp x (List.mem_cons_of_mem _ hx)
    have hitem := hp item (List.mem_cons_self _ _)
    cases item with
    | value entry =>
      obtain ⟨st, hst, hcount⟩ := ih hrest n (countEntry orders st0 entry) hn
      refine ⟨st, by rw [parseLoop_value]; exact hst, ?_⟩
      rw [hcount, decodedValues_cons_value]
      simp only [countEntry]
      omega
    | mismatch msg =>
      have hc : ¬ stringsContains msg "EOF" = true := by
        simpa [StreamItem.passable] using hitem
      obtain ⟨st, hst, hcount⟩ := ih hrest n
        { st0 with stdout := st0.stdout ++
            ["Warning: Failed to parse entry " ++ toString (st0.entryCount + 1) ++ ": "
              ++ msg ++ "\n"] } hn
      refine ⟨st, by rw [parseLoop_mismatch, if_neg hc]; exact hst, ?_⟩
      rw [hcount, decodedValues_cons_mismatch]
    | malformed msg => exact absurd hitem (by simp [StreamItem.passable])
    | readFailure err => exact absurd hitem (by simp [StreamItem.passable])

/-- C16. Whenever the loop of ParseOperatorIndex finishes, the entry counter is
exactly the number of decode attempts that succeeded: the attempts before the one
whose answer made the loop break, none of which made it break, counted when they
decoded a value, of whatever schema and with or without a resulting record, and not
counted when they failed. On the stream this is the number of values among the items
before the first one that is neither a value nor an unmarshal failure. The loop does
finish when after those items the stream ends or the next item makes the loop break,
in particular on every stream of values and unmarshal failures. The counter is the
number in the line "Processed n entries" that ParseOperatorIndex prints last. -/
theorem entryCount_counts_decoded (orders : Nat → Nat → RangeOrder) (file : List StreamItem) :
    (∀ fuel st,
      parseLoop Decoder.Decode orders fuel (NewDecoder file) LoopState.initial = some st →
      leavesLoop file = true ∧
      st.entryCount = decodedValues (itemsPassed file) ∧
      ∃ k last, k < fuel ∧
        decodeAnswers Decoder.Decode (k + 1) (NewDecoder file) =
          decodeAnswers Decoder.Decode k (NewDecoder file) ++ [last] ∧
        answerEndsLoop last = true ∧
        (∀ a ∈ decodeAnswers Decoder.Decode k (NewDecoder file), answerEndsLoop a = false) ∧
        st.entryCount =
          ((decodeAnswers Decoder.Decode k (NewDecoder file)).filter answerDecoded).length) ∧
    (leavesLoop file = true → ∀ fuel, (itemsPassed file).length < fuel →
      ∃ st, parseLoop Decoder.Decode orders fuel (NewDecoder file) LoopState.initial = some st ∧
        st.entryCount = decodedValues (itemsPassed file)) ∧
    ((∀ item ∈ file, item.passable = true) → ∀ fuel, file.length < fuel →
      ∃ st, parseLoop Decoder.Decode orders fuel (NewDecoder file) LoopState.initial = some st ∧
        st.entryCount = decodedValues file) ∧
    (∀ (osOpen : String → Except GoError (List StreamItem)) (fuel : Nat) (filePath : String)
      (ret : ParseReturn), osOpen filePath = .ok file →
      ParseOperatorIndex osOpen orders fuel filePath = some ret →
      ∃ st, parseLoop Decoder.Decode orders fuel (NewDecoder file) LoopState.initial = some st ∧
        ret.stdout.getLast? = some ("Processed " ++ toString st.entryCount ++ " entries\n")) := by
  refine ⟨?_, ?_, ?_, ?_⟩
  · intro fuel st h
    obtain ⟨hleave, hcount⟩ := parseLoop_exact orders file fuel LoopState.initial st h
    obtain ⟨k, last, hk, hlast, hend, hall, hk2⟩ :=
      parseLoop_answers Decoder.Decode orders fuel (NewDecoder file) LoopState.initial st h
    refine ⟨hleave, by rw [hcount]; simp [LoopState.initial], k, last, hk, hlast, hend, hall, ?_⟩
    rw [hk2]
    simp [LoopState.initial]
  · intro hleave fuel hfuel
    obtain ⟨st, h1, h2⟩ := parseLoop_leaves orders file hleave fuel LoopState.initial hfuel
    exact ⟨st, h1, by rw [h2]; simp [LoopState.initial]⟩
  · intro hp fuel hfuel
    obtain ⟨st, h1, h2⟩ := parseLoop_passable orders file hp fuel LoopState.initial hfuel
    exact ⟨st, h1, by rw [h2]; simp [LoopState.initial]⟩
  · intro osOpen fuel filePath ret hopen hret
    unfold ParseOperatorIndex at hret
    rw [hopen] at hret
    simp only at hret
    split at hret
    · exact absurd hret (by simp)
    · rename_i st hst
      cases hret
      exact ⟨st, hst, by simp⟩

/-- Witness for C16: on a bundle, a value that fails to unmarshal, a package entry
and a bundle without labels, three values are decoded; on a bundle after which the
file ends inside a value, the loop breaks on the text "unexpected EOF" with the
counter at one. -/
theorem entryCount_counts_decoded_witness :
    ((∀ item ∈ mismatchStream, item.passable = true) ∧ mismatchStream.length < 5 ∧
      decodedValues mismatchStream = 3 ∧
      ParseOperatorIndex (singleFile "index.json" mismatchStream)
          (fun _ _ => RangeOrder.literal) 5 "index.json" =
        some { results := [scenarioRecord], err := none,
               stdout := ["Warning: Failed to parse entry 2: " ++ mismatchText ++ "\n",
                          "Processed 3 entries\n"] } ∧
      ∃ st, parseLoop Decoder.Decode (fun _ _ => RangeOrder.literal) 5
          (NewDecoder mismatchStream) LoopState.initial = some st ∧
        st.entryCount = decodedValues mismatchStream) ∧
    (leavesLoop truncatedStream = true ∧ (itemsPassed truncatedStream).length < 2 ∧
      decodedValues (itemsPassed truncatedStream) = 1 ∧
      ParseOperatorIndex (singleFile "index.json" truncatedStream)
          (fun _ _ => RangeOrder.literal) 2 "index.json" =
        some { results := [scenarioRecord], err := none,
               stdout := ["Processed 1 entries\n"] } ∧
      ∃ st, parseLoop Decoder.Decode (fun _ _ => RangeOrder.literal) 2
          (NewDecoder truncatedStream) LoopState.initial = some st ∧
        st.entryCount = decodedValues (itemsPassed truncatedStream)) :=
  ⟨⟨by decide, by decide, by decide, by decide,
    (entryCount_counts_decoded (fun _ _ => RangeOrder.literal) mismatchStream).2.2.1
      (by decide) 5 (by decide)⟩,
   ⟨by decide, by decide, by decide, by decide,
    (entryCount_counts_decoded (fun _ _ => RangeOrder.literal) truncatedStream).2.1
      (by decide) 2 (by decide)⟩⟩

theorem lessChars_irrefl (l : List Char) : lessChars l l = false := by
  induction l with
  | nil => rfl
  | cons a l ih => simp [lessChars, ih]

theorem lessChars_trans (a b c : List Char) (hab : lessChars a b = true)
    (hbc : lessChars b c = true) : lessChars a c = true := by
  induction a generalizing b c with
  | nil =>
    cases c with
    | nil => cases b <;> simp [lessChars] at hbc
    | cons z c => rfl
  | cons x a ih =>
    cases b with
    | nil => simp [lessChars] at hab
    | cons y b =>
      cases c with
      | nil => simp [lessChars] at hbc
      | cons z c =>
        simp only [lessChars] at hab hbc ⊢
        by_cases hxy : x = y
        · subst hxy
          by_cases hxz : x = z
          · subst hxz
            simp only [if_true] at hab hbc ⊢
            exact ih b c hab hbc
          · simp only [if_true, hxz, if_false] at hab hbc ⊢
            exact hbc
        · simp only [hxy, if_false, decide_eq_true_eq] at hab
          by_cases hyz : y = z
          · subst hyz
            simp only [hxy, if_false, decide_eq_true_eq]
            exact hab
          · simp only [hyz, if_false, decide_eq_true_eq] at hbc
            have hxz : x < z := lt_trans hab hbc
            simp only [ne_of_lt hxz, if_false, decide_eq_true_eq]
            exact hxz

theorem lessChars_trichotomy (a b : List Char) :
    lessChars a b = true ∨ a = b ∨ lessChars b a = true := by
  induction a generalizing b with
  | nil =>
    cases b with
    | nil => exact Or.inr (Or.inl rfl)
    | cons y b => exact Or.inl rfl
  | cons x a ih =>
    cases b with
    | nil => exact Or.inr (Or.inr rfl)
    | cons y b =>
      simp only [lessChars]
      by_cases hxy : x = y
      · subst hxy
        simp only [if_true]
        rcases ih b with h | h | h
        · exact Or.inl h
        · exact Or.inr (Or.inl (by rw [h]))
        · exact Or.inr (Or.inr h)
      · have hyx : ¬ y = x := fun h => hxy h.symm
        simp only [hxy, hyx, if_false, decide_eq_true_eq]
        rcases lt_trichotomy x y with h | h | h
        · exact Or.inl h
        · exact absurd h hxy
        · exact Or.inr (Or.inr h)

theorem stringLess_irrefl (a : String) : stringLess a a = false :=
  lessChars_irrefl a.data

theorem stringLess_trans (a b c : String) (hab : stringLess a b = true)
    (hbc : stringLess b c = true) : stringLess a c = true :=
  lessChars_trans _ _ _ hab hbc

theorem stringLess_trichotomy (a b : String) :
    stringLess a b = true ∨ a = b ∨ stringLess b a = true := by
  rcases lessChars_trichotomy a.data b.data with h | h | h
  · exact Or.inl h
  · exact Or.inr (Or.inl (String.ext h))
  · exact Or.inr (Or.inr h)

theorem stringLess_ne (a b : String) (h : stringLess a b = true) : a ≠ b := by
  intro hab
  rw [hab, stringLess_irrefl] at h
  exact absurd h (by simp)

theorem stringLess_asymm (a b : String) (h : stringLess a b = true) : stringLess b a = false := by
  cases hba : stringLess b a with
  | false => rfl
  | true =>
    have := stringLess_trans a b a h hba
    rw [stringLess_irrefl] at this
    exact absurd this (by simp)

theorem sortLess_iff (a b : ArchitectureSupport) :
    sortLess a b = true ↔
      stringLess a.Package b.Package = true ∨
        (a.Package = b.Package ∧ stringLess a.BundleName b.BundleName = true) := by
  unfold sortLess
  by_cases h : a.Package = b.Package
  · simp [h, stringLess_irrefl]
  · simp [h]

theorem sortLess_irrefl (a : ArchitectureSupport) : sortLess a a = false := by
  simp [sortLess, stringLess_irrefl]

theorem sortLess_trans (a b c : ArchitectureSupport) (hab : sortLess a b = true)
    (hbc : sortLess b c = true) : sortLess a c = true := by
  rw [sortLess_iff] at hab hbc ⊢
  rcases hab with h1 | ⟨e1, h1⟩
  · rcases hbc with h2 | ⟨e2, _⟩
    · exact Or.inl (stringLess_trans _ _ _ h1 h2)
    · exact Or.inl (e2 ▸ h1)
  · rcases hbc with h2 | ⟨e2, h2⟩
    · exact Or.inl (e1 ▸ h2)
    · exact Or.inr ⟨e1.trans e2, stringLess_trans _ _ _ h1 h2⟩

theorem sortLess_false_iff (a b : ArchitectureSupport) : sortLess b a = false ↔ lexLE a b := by
  rw [← Bool.not_eq_true, sortLess_iff]
  unfold lexLE
  constructor
  · intro h
    rw [not_or, not_and] at h
    rcases stringLess_trichotomy a.Package b.Package with hp | hp | hp
    · exact Or.inl hp
    · refine Or.inr ⟨hp, ?_⟩
      rcases stringLess_trichotomy a.BundleName b.BundleName with hb | hb | hb
      · exact Or.inl hb
      · exact Or.inr hb
      · exact absurd hb (h.2 hp.symm)
    · exact absurd hp h.1
  · rintro (hp | ⟨hp, hb | hb⟩)
    · rintro (h | ⟨e, _⟩)
      · have := stringLess_asymm _ _ hp
        rw [h] at this
        exact absurd this (by simp)
      · exact stringLess_ne _ _ hp e.symm
    · rintro (h | ⟨_, h⟩)
      · rw [hp, stringLess_irrefl] at h
        exact absurd h (by simp)
      · have := stringLess_asymm _ _ hb
        rw [h] at this
        exact absurd this (by simp)
    · rintro (h | ⟨_, h⟩)
      · rw [hp, stringLess_irrefl] at h
        exact absurd h (by simp)
      · rw [hb, stringLess_irrefl] at h
        exact absurd h (by simp)

theorem lexLE_trans (a b c : ArchitectureSupport) (hab : lexLE a b) (hbc : lexLE b c) :
    lexLE a c := by
  unfold lexLE at hab hbc ⊢
  rcases hab with h1 | ⟨e1, h1⟩
  · rcases hbc with h2 | ⟨e2, _⟩
    · exact Or.inl (stringLess_trans _ _ _ h1 h2)
    · exact Or.inl (e2 ▸ h1)
  · rcases hbc with h2 | ⟨e2, h2⟩
    · exact Or.inl (e1 ▸ h2)
    · refine Or.inr ⟨e1.trans e2, ?_⟩
      rcases h1 with h1 | h1
      · rcases h2 with h2 | h2
        · exact Or.inl (stringLess_trans _ _ _ h1 h2)
        · exact Or.inl (h2 ▸ h1)
      · rcases h2 with h2 | h2
        · exact Or.inl (h1 ▸ h2)
        · exact Or.inr (h1.trans h2)

theorem sortLess_strictWeakOrder : StrictWeakOrder sortLess := by
  refine ⟨sortLess_irrefl, sortLess_trans, ?_⟩
  intro a b c hab hbc
  rw [sortLess_false_iff] at hab hbc ⊢
  exact lexLE_trans _ _ _ hbc hab

theorem insertionSortBy_contract {α : Type} (less : α → α → Bool) (h : StrictWeakOrder less)
    (l : List α) :
    (insertionSortBy less l).Perm l ∧
    (insertionSortBy less l).Pairwise (fun a b => less b a = false) := by
  obtain ⟨hirr, htrans, hneg⟩ := h
  haveI : IsTotal α (fun a b => less b a = false) := ⟨by
    intro a b
    cases hba : less b a with
    | false => exact Or.inl rfl
    | true =>
      right
      cases hab : less a b with
      | false => rfl
      | true =>
        have := htrans a b a hab hba
        rw [hirr] at this
        exact absurd this (by simp)⟩
  haveI : IsTrans α (fun a b => less b a = false) := ⟨fun a b c hab hbc => hneg c b a hbc hab⟩
  exact ⟨List.perm_insertionSort _ l, List.sorted_insertionSort _ l⟩

/-- C17. The comparator that main passes to sort.Slice, Package ascending with ties
broken by BundleName ascending, is a strict weak ordering. So for every sort that
keeps the contract of sort.Slice, which returns for a strict weak ordering a
permutation of the slice in which no element is less than an earlier one, the sorted
results are a permutation of the results and non-decreasing in the lexicographic
order on (Package, BundleName). -/
theorem sorted_results_ordered :
    StrictWeakOrder sortLess ∧
    ∀ sortSlice : (ArchitectureSupport → ArchitectureSupport → Bool) →
        List ArchitectureSupport → List ArchitectureSupport,
      (∀ less, StrictWeakOrder less → ∀ l,
        (sortSlice less l).Perm l ∧ (sortSlice less l).Pairwise (fun a b => less b a = false)) →
      ∀ results,
        (sortSlice sortLess results).Perm results ∧
        (sortSlice sortLess results).Pairwise lexLE := by
  refine ⟨sortLess_strictWeakOrder, ?_⟩
  intro sortSlice hcontract results
  obtain ⟨hperm, hsorted⟩ := hcontract sortLess sortLess_strictWeakOrder results
  exact ⟨hperm, hsorted.imp (fun {a b} h => (sortLess_false_iff a b).1 h)⟩

/-- Witness for C17: insertion sort keeps the contract, and sorts three records of
the packages qux, foo and baz into baz, foo, qux. -/
theorem sorted_results_ordered_witness :
    insertionSortBy sortLess [secondRecord, scenarioRecord, repeatedRecord] =
      [repeatedRecord, scenarioRecord, secondRecord] ∧
    (insertionSortBy sortLess [secondRecord, scenarioRecord, repeatedRecord]).Perm
      [secondRecord, scenarioRecord, repeatedRecord] ∧
    (insertionSortBy sortLess [secondRecord, scenarioRecord, repeatedRecord]).Pairwise lexLE :=
  ⟨by decide,
   sorted_results_ordered.2 (@insertionSortBy ArchitectureSupport)
     (fun less h l => insertionSortBy_contract less h l)
     [secondRecord, scenarioRecord, repeatedRecord]⟩

end IndexArchSorter
